import Mathlib

/-!
Verification development for the `gntm` task-graph engine.

The repository contains two implementations of the same `graph` package:
`src/graph/task.go` (struct-valued `ExecuteOptions`, no `SetLimit` on the
errgroup) and `src/unnamed/part_000` (functional options, `SetLimit` applied).
Both share the data model (`Task`, `TaskGraph`), `AddTask`, `executeLayer`,
`Execute`, and `GetExecutionOrder`.  This file gives a shallow embedding of
those functions and proves properties about them.

Modelling conventions:
* Go maps are association lists with unique keys (`lookupAL` / `insertAL`);
  `insertAL` overwrites in place, like a Go map assignment.
* The external graph store (`github.com/dominikbraun/graph`, consumed as a
  capability: vertex/edge insertion failing on duplicates and missing
  endpoints, topological sort failing exactly on cycles) is modelled by
  `Store`, `addVertex`, `addEdge` and a Kahn-style `topoSort`.
* Task work functions and guard conditions are opaque deterministic
  functions; the cancellable context is not observed by the model.
* Layer execution is given the sequential (interleaving-free) semantics:
  every task of the layer is processed in list order, statuses are written
  to a shared map, the first error (in that order) becomes the layer error.
  Go's map iteration order is fixed to insertion order.
* Result values are a type parameter `V`.
-/

namespace Gntm

/-- Task status, from `TaskStatus` in the source. -/
inductive TaskStatus where
  | pending
  | running
  | completed
  | failed
  | skipped
deriving DecidableEq, Repr

/-- Lookup in an association list modelling a Go map read. -/
def lookupAL {α : Type _} : List (String × α) → String → Option α
  | [], _ => none
  | p :: rest, k => if p.1 = k then some p.2 else lookupAL rest k

/-- Insertion into an association list modelling a Go map write:
overwrite the entry in place when the key is present, append otherwise. -/
def insertAL {α : Type _} : List (String × α) → String → α → List (String × α)
  | [], k, v => [(k, v)]
  | p :: rest, k, v => if p.1 = k then (k, v) :: rest else p :: insertAL rest k v

/-- A task: identifier, declared dependencies (only the IDs of the referenced
tasks are ever read by the source), optional guard condition, work function
and the initial `Status` field value.  The work function takes the
dependency-inputs map and returns a value or an error message. -/
structure Task (V : Type _) where
  id : String
  depends : List String
  condition : Option (List (String × V) → Bool)
  work : List (String × V) → Except String V
  status : TaskStatus

/-- The external directed-graph store: vertices keyed by task ID (kept in
insertion order) and directed edges. -/
structure Store (V : Type _) where
  vertices : List (Task V)
  edges : List (String × String)

/-- The IDs of the stored vertices, in insertion order. -/
def vertexIds {V : Type _} (st : Store V) : List String :=
  st.vertices.map Task.id

/-- `graph.Vertex`: find a stored task by ID. -/
def vertexLookup {V : Type _} (st : Store V) (id : String) : Option (Task V) :=
  st.vertices.find? (fun t => t.id == id)

/-- `graph.AddVertex`: fails on a duplicate ID, otherwise appends. -/
def addVertex {V : Type _} (st : Store V) (t : Task V) : Except String (Store V) :=
  if (vertexIds st).contains t.id then
    Except.error "vertex already exists"
  else
    Except.ok { st with vertices := st.vertices ++ [t] }

/-- `graph.AddEdge`: fails when either endpoint vertex is absent or the edge
already exists, otherwise appends the directed edge. -/
def addEdge {V : Type _} (st : Store V) (s t : String) : Except String (Store V) :=
  if !(vertexIds st).contains s then
    Except.error ("source vertex " ++ s ++ ": vertex not found")
  else if !(vertexIds st).contains t then
    Except.error ("target vertex " ++ t ++ ": vertex not found")
  else if st.edges.contains (s, t) then
    Except.error "edge already exists"
  else
    Except.ok { st with edges := st.edges ++ [(s, t)] }

/-- Does `v` have an incoming edge whose source is still in `remaining`? -/
def hasIncoming (edges : List (String × String)) (remaining : List String)
    (v : String) : Bool :=
  edges.any (fun e => e.2 == v && remaining.contains e.1)

/-- Kahn's algorithm: repeatedly emit the first remaining vertex with no
incoming edge from the remaining set; if none exists the graph is cyclic. -/
def kahnAux (edges : List (String × String)) :
    Nat → List String → Except String (List String)
  | _, [] => Except.ok []
  | 0, _ :: _ => Except.error "topological sort: graph contains a cycle"
  | fuel + 1, remaining =>
    match remaining.find? (fun v => !hasIncoming edges remaining v) with
    | none => Except.error "topological sort: graph contains a cycle"
    | some v => (kahnAux edges fuel (remaining.erase v)).map (fun rest => v :: rest)

/-- `graph.TopologicalSort`: a valid linear order of all vertices, or a
cycle-detected failure. -/
def topoSort {V : Type _} (st : Store V) : Except String (List String) :=
  kahnAux st.edges (vertexIds st).length (vertexIds st)

/-- `ExecuteOptions` of the functional-options implementation. -/
structure ExecuteOptions where
  workerCount : Int
  enableDebugLog : Bool
deriving DecidableEq, Repr

/-- `ExecuteOption`: a functional option mutating the stored options. -/
def ExecuteOption : Type := ExecuteOptions → ExecuteOptions

/-- `WithWorkerCount`: sets the worker count only when positive. -/
def WithWorkerCount (count : Int) : ExecuteOption :=
  fun opts => if 0 < count then { opts with workerCount := count } else opts

/-- `WithDebugLog`: toggles debug logging. -/
def WithDebugLog (enable : Bool) : ExecuteOption :=
  fun opts => { opts with enableDebugLog := enable }

/-- The task graph: the store, the `taskLayers` map, the mutable per-task
`Status` fields (collected into one map keyed by ID), and the stored
execution options of the functional-options implementation. -/
structure TaskGraph (V : Type _) where
  store : Store V
  taskLayers : List (String × Int)
  statuses : List (String × TaskStatus)
  opts : ExecuteOptions

/-- `NewTaskGraph`: empty store, empty layer map, default options
(worker count 5, debug logging off). -/
def NewTaskGraph (V : Type _) : TaskGraph V :=
  { store := ⟨[], []⟩
    taskLayers := []
    statuses := []
    opts := { workerCount := 5, enableDebugLog := false } }

/-- The dependency loop of `AddTask`: for each dependency add the edge
`dep → taskId` and fold the running maximum of the dependencies' layers
(started at `-1`); fails with the wrapped edge error, or with the
"not found in layer map" error when a dependency has no layer entry.
On failure the store keeps everything inserted so far (no rollback). -/
def addEdgesAndLayers {V : Type _} (layers : List (String × Int)) (taskId : String) :
    Store V → List String → Int → Store V × Except String Int
  | st, [], m => (st, Except.ok m)
  | st, dep :: rest, m =>
    match addEdge st dep taskId with
    | Except.error e => (st, Except.error ("failed to add dependency: " ++ e))
    | Except.ok st' =>
      match lookupAL layers dep with
      | some l => addEdgesAndLayers layers taskId st' rest (if m < l then l else m)
      | none =>
        (st', Except.error ("dependency task " ++ dep ++ " not found in layer map"))

/-- The cycle check at the end of `AddTask`: a failing topological sort is
wrapped as "invalid task graph"; the graph is kept as mutated (no rollback). -/
def checkAcyclic {V : Type _} (tg : TaskGraph V) : TaskGraph V × Option String :=
  match topoSort tg.store with
  | Except.error e => (tg, some ("invalid task graph: " ++ e))
  | Except.ok _ => (tg, none)

/-- `AddTask`: insert the vertex, then either record layer 0 (no
dependencies) or add the dependency edges while computing
`maxDepLayer + 1`, then re-check acyclicity.  The returned graph reflects
all mutations performed before a failure (no rollback). -/
def AddTask {V : Type _} (tg : TaskGraph V) (t : Task V) : TaskGraph V × Option String :=
  match addVertex tg.store t with
  | Except.error e => (tg, some ("failed to add task: " ++ e))
  | Except.ok st1 =>
    if t.depends.isEmpty then
      checkAcyclic { tg with
        store := st1
        statuses := insertAL tg.statuses t.id t.status
        taskLayers := insertAL tg.taskLayers t.id 0 }
    else
      match addEdgesAndLayers tg.taskLayers t.id st1 t.depends (-1) with
      | (st2, Except.error e) =>
        ({ tg with store := st2, statuses := insertAL tg.statuses t.id t.status },
          some e)
      | (st2, Except.ok m) =>
        checkAcyclic { tg with
          store := st2
          statuses := insertAL tg.statuses t.id t.status
          taskLayers := insertAL tg.taskLayers t.id (m + 1) }

/-- `GetExecutionOrder`: the store's topological sort. -/
def GetExecutionOrder {V : Type _} (tg : TaskGraph V) : Except String (List String) :=
  topoSort tg.store

/-- The input snapshot of `executeLayer`: for every declared dependency that
has an entry in the cumulative results map, copy that entry; dependencies
without an entry are silently omitted. -/
def collectInputs {V : Type _} (deps : List String) (results : List (String × V)) :
    List (String × V) :=
  deps.foldl (fun acc dep =>
    match lookupAL results dep with
    | some r => insertAL acc dep r
    | none => acc) []

/-- Does the guard condition block execution?  Mirrors
`task.Condition != nil && !task.Condition(inputs)`. -/
def conditionBlocks {V : Type _} (t : Task V) (inputs : List (String × V)) : Bool :=
  match t.condition with
  | some c => !c inputs
  | none => false

/-- The status assignment `task.Status = s` (statuses are keyed by ID). -/
def setStatus {V : Type _} (tg : TaskGraph V) (id : String) (s : TaskStatus) :
    TaskGraph V :=
  { tg with statuses := insertAL tg.statuses id s }

/-- The body of one goroutine of `executeLayer`: build the input snapshot,
evaluate the guard (skip without invoking the work function when it is
false), otherwise set status Running, invoke the work function, and record
Failed plus the wrapped error or Completed plus the result entry.
The source ignores the error of the vertex lookup (`task, _ :=
tg.graph.Vertex(taskID)`); the `none` branch is unreachable for IDs drawn
from the layer map of a graph whose layer keys all have vertices. -/
def runTask {V : Type _} (tg : TaskGraph V) (results : List (String × V))
    (taskId : String) : TaskGraph V × Option (String × V) × Option String :=
  match vertexLookup tg.store taskId with
  | none => (tg, none, none)
  | some task =>
    if conditionBlocks task (collectInputs task.depends results) then
      (setStatus tg taskId TaskStatus.skipped, none, none)
    else
      match task.work (collectInputs task.depends results) with
      | Except.error e =>
        (setStatus (setStatus tg taskId TaskStatus.running) taskId TaskStatus.failed,
          none, some ("task " ++ taskId ++ " failed: " ++ e))
      | Except.ok v =>
        (setStatus (setStatus tg taskId TaskStatus.running) taskId TaskStatus.completed,
          some (taskId, v), none)

/-- Sequential semantics of the goroutine group of one layer: process every
task of the layer in order, accumulate the layer-local result map, keep the
first error encountered. -/
def execTasks {V : Type _} (results : List (String × V)) :
    TaskGraph V → List String → List (String × V) → Option String →
    TaskGraph V × List (String × V) × Option String
  | tg, [], lres, ferr => (tg, lres, ferr)
  | tg, taskId :: rest, lres, ferr =>
    execTasks results (runTask tg results taskId).1 rest
      (match (runTask tg results taskId).2.1 with
       | some p => insertAL lres p.1 p.2
       | none => lres)
      (match ferr with
       | some e => some e
       | none => (runTask tg results taskId).2.2)

/-- `executeLayer`: run all tasks of one layer against the cumulative
results map of the strictly earlier layers; on any task failure the layer
returns no result map and the first error, otherwise the layer-local
result map. -/
def executeLayer {V : Type _} (tg : TaskGraph V) (layer : List String)
    (results : List (String × V)) :
    TaskGraph V × Option (List (String × V)) × Option String :=
  ((execTasks results tg layer [] none).1,
    match (execTasks results tg layer [] none).2.2 with
    | some e => (none, some e)
    | none => (some (execTasks results tg layer [] none).2.1, none))

/-- Merging a layer's results into the cumulative map
(`for k, v := range layerResults { results[k] = v }`). -/
def mergeResults {V : Type _} (results lres : List (String × V)) : List (String × V) :=
  lres.foldl (fun acc p => insertAL acc p.1 p.2) results

/-- The maximum layer number present (`maxLayer` in `Execute`, started at 0). -/
def maxLayerOf (taskLayers : List (String × Int)) : Int :=
  taskLayers.foldl (fun m p => if m < p.2 then p.2 else m) 0

/-- Grouping of tasks by layer (`layers` in `Execute`): one list for each
layer number `0 .. maxLayer`, each listing the task IDs assigned to that
layer in map-iteration order (fixed here to insertion order). -/
def layersOf (taskLayers : List (String × Int)) : List (List String) :=
  (List.range ((maxLayerOf taskLayers).toNat + 1)).map
    (fun i : Nat => (taskLayers.filter (fun p => p.2 == (i : Int))).map Prod.fst)

/-- The layer-by-layer loop shared by both `Execute` implementations: run
each layer on the results accumulated so far; on a layer failure abort
immediately, returning no results map (`nil`) and the error; otherwise
merge the layer results and continue. -/
def execLayers {V : Type _} :
    TaskGraph V → List (List String) → List (String × V) →
    TaskGraph V × Option (List (String × V)) × Option String
  | tg, [], results => (tg, some results, none)
  | tg, layer :: rest, results =>
    match (executeLayer tg layer results).2.2 with
    | some e => ((executeLayer tg layer results).1, none, some e)
    | none =>
      execLayers (executeLayer tg layer results).1 rest
        (mergeResults results (((executeLayer tg layer results).2.1).getD []))

/-- `Execute` of the functional-options implementation
(`src/unnamed/part_000`): apply every supplied option to the stored
options (they are never reset), then run the layers.  The debug log
statements have no behavioural effect and are omitted. -/
def Execute {V : Type _} (tg : TaskGraph V) (options : List ExecuteOption) :
    TaskGraph V × Option (List (String × V)) × Option String :=
  let opts := options.foldl (fun o f => f o) tg.opts
  let tg1 := { tg with opts := opts }
  execLayers tg1 (layersOf tg1.taskLayers) []

/-- `ExecuteOptions` of the struct-options implementation (`src/graph/task.go`). -/
structure ExecuteOptionsS where
  workerCount : Int
deriving DecidableEq, Repr

/-- `Execute` of the struct-options implementation (`src/graph/task.go`):
default the worker count to 5 when non-positive (the defaulted value is
never used afterwards — the errgroup of this implementation gets no
`SetLimit`), validate via a topological sort, then run the same
layer-by-layer loop.  It reads no stored options, so it is modelled on the
same `TaskGraph` carrier with `tg.opts` ignored. -/
def ExecuteS {V : Type _} (tg : TaskGraph V) (opts : ExecuteOptionsS) :
    TaskGraph V × Option (List (String × V)) × Option String :=
  let _opts := if opts.workerCount ≤ 0 then { opts with workerCount := (5 : Int) } else opts
  match topoSort tg.store with
  | Except.error e => (tg, none, some ("failed to sort tasks: " ++ e))
  | Except.ok _ => execLayers tg (layersOf tg.taskLayers) []

/-! ### Concurrency model of one layer's goroutine group

`executeLayer` launches one goroutine per task of the layer.  The
functional-options implementation calls `g.SetLimit(tg.opts.WorkerCount)`
on the errgroup first; the struct-options implementation creates the
errgroup without any limit.  An errgroup with limit `k` admits exactly the
schedules in which a task starts only while fewer than `k` tasks are
running; without a limit every interleaving of starts and finishes is
admissible. -/

/-- A scheduling event of one layer run: task `i` starts or finishes. -/
inductive LEvent where
  | start (i : Nat)
  | finish (i : Nat)
deriving DecidableEq, Repr

/-- The concurrency limit the functional-options `executeLayer` configures
on its errgroup: `g.SetLimit(tg.opts.WorkerCount)`.  A negative limit
means no limit for an errgroup. -/
def errgroupLimit (opts : ExecuteOptions) : Option Nat :=
  if opts.workerCount < 0 then none else some opts.workerCount.toNat

/-- The concurrency limit the struct-options `executeLayer` configures on
its errgroup: none — `src/graph/task.go` never calls `SetLimit`, so the
computed `opts.WorkerCount` is never applied. -/
def errgroupLimitS : Option Nat := none

/-- Is a trace of start/finish events admissible for an errgroup with the
given limit?  `running` holds the currently running tasks, `started` the
tasks that have started at some point (each task starts at most once);
with limit `k` a start is admissible only while fewer than `k` tasks run. -/
def validTrace (limit : Option Nat) :
    List Nat → List Nat → List LEvent → Bool
  | _, _, [] => true
  | running, started, LEvent.start i :: rest =>
    !started.contains i &&
    (match limit with
     | some k => running.length < k
     | none => true) &&
    validTrace limit (i :: running) (i :: started) rest
  | running, started, LEvent.finish i :: rest =>
    running.contains i && validTrace limit (running.erase i) started rest

/-- The set of running tasks after a trace. -/
def runningAfter : List Nat → List LEvent → List Nat
  | running, [] => running
  | running, LEvent.start i :: rest => runningAfter (i :: running) rest
  | running, LEvent.finish i :: rest => runningAfter (running.erase i) rest

/-! ### Concrete instances used by the scenario claims and witnesses -/

/-- Diamond scenario, task A: no dependencies, work returns 1. -/
def taskA : Task Nat :=
  { id := "A", depends := [], condition := none
    work := fun _ => Except.ok 1, status := TaskStatus.pending }

/-- Diamond scenario, task B: depends on A, work returns 2. -/
def taskB : Task Nat :=
  { id := "B", depends := ["A"], condition := none
    work := fun _ => Except.ok 2, status := TaskStatus.pending }

/-- Diamond scenario, task C: depends on A, work returns 3. -/
def taskC : Task Nat :=
  { id := "C", depends := ["A"], condition := none
    work := fun _ => Except.ok 3, status := TaskStatus.pending }

/-- Diamond scenario, task D: depends on B and C, work returns 4. -/
def taskD : Task Nat :=
  { id := "D", depends := ["B", "C"], condition := none
    work := fun _ => Except.ok 4, status := TaskStatus.pending }

/-- Intermediate stages of the diamond build. -/
def diamond1 : TaskGraph Nat := (AddTask (NewTaskGraph Nat) taskA).1

def diamond2 : TaskGraph Nat := (AddTask diamond1 taskB).1

def diamond3 : TaskGraph Nat := (AddTask diamond2 taskC).1

/-- The diamond graph A; B, C (dep A); D (dep B, C), built by four
`AddTask` calls. -/
def diamond : TaskGraph Nat := (AddTask diamond3 taskD).1

/-- Failing chain, task B: depends on A, work fails with "boom". -/
def taskBfail : Task Nat :=
  { id := "B", depends := ["A"], condition := none
    work := fun _ => Except.error "boom", status := TaskStatus.pending }

/-- Failing chain, task C: depends on B (so it lives in layer 2). -/
def taskCafterB : Task Nat :=
  { id := "C", depends := ["B"], condition := none
    work := fun _ => Except.ok 3, status := TaskStatus.pending }

/-- Intermediate stages of the failing chain build. -/
def failChain1 : TaskGraph Nat := (AddTask (NewTaskGraph Nat) taskA).1

def failChain2 : TaskGraph Nat := (AddTask failChain1 taskBfail).1

/-- The failing chain A → B (fails) → C. -/
def failChain : TaskGraph Nat := (AddTask failChain2 taskCafterB).1

/-- Guard scenario, task B: depends on A, guard always false. -/
def taskBguard : Task Nat :=
  { id := "B", depends := ["A"], condition := some (fun _ => false)
    work := fun _ => Except.ok 2, status := TaskStatus.pending }

/-- The guard graph A; B (dep A, guard false). -/
def guardGraph : TaskGraph Nat :=
  (AddTask (AddTask (NewTaskGraph Nat) taskA).1 taskBguard).1

/-- A task that declares itself as its own dependency. -/
def taskSelf : Task Nat :=
  { id := "A", depends := ["A"], condition := none
    work := fun _ => Except.ok 1, status := TaskStatus.pending }

/-- The graph left behind by `AddTask` of the self-dependent task: the
vertex and the self-loop edge remain in the store, no layer entry exists. -/
def selfLoopGraph : TaskGraph Nat := (AddTask (NewTaskGraph Nat) taskSelf).1

/-- A task depending on an ID that was never registered. -/
def taskMissingDep : Task Nat :=
  { id := "A", depends := ["X"], condition := none
    work := fun _ => Except.ok 1, status := TaskStatus.pending }

/-- The running maximum the dependency loop of `AddTask` folds over the
layers of the dependencies (`maxDepLayer`), with explicit accumulator. -/
def depMax (layers : List (String × Int)) : List String → Int → Int
  | [], m => m
  | dep :: rest, m =>
    depMax layers rest
      (match lookupAL layers dep with
       | some l => if m < l then l else m
       | none => m)

/-- Every edge points strictly forward in the given vertex order: no vertex
has an incoming edge whose source appears at its position or later.  This
is the shape `AddTask` maintains: every edge goes from an earlier vertex to
a later one. -/
def forwardClosed (edges : List (String × String)) : List String → Prop
  | [] => True
  | v :: rest => (∀ e ∈ edges, e.2 = v → e.1 ∉ v :: rest) ∧ forwardClosed edges rest

/-- The structural invariant every graph built by successful `AddTask`
calls satisfies: vertex IDs are distinct, the layer map has exactly the
vertex IDs as keys, edges connect stored vertices and always point
strictly forward in insertion order, layers are non-negative, and every
task's layer entry is 0 for dependency-free tasks and the fold-maximum of
its dependencies' layers plus one otherwise. -/
structure GraphInv {V : Type _} (tg : TaskGraph V) : Prop where
  nodup : (vertexIds tg.store).Nodup
  layerKeys : tg.taskLayers.map Prod.fst = vertexIds tg.store
  edgeEnds : ∀ e ∈ tg.store.edges,
    e.1 ∈ vertexIds tg.store ∧ e.2 ∈ vertexIds tg.store
  forward : forwardClosed tg.store.edges (vertexIds tg.store)
  layersNonneg : ∀ p ∈ tg.taskLayers, 0 ≤ p.2
  layersCorrect : ∀ t ∈ tg.store.vertices,
    (t.depends = [] → lookupAL tg.taskLayers t.id = some 0) ∧
    (t.depends ≠ [] →
      (∀ d ∈ t.depends, (lookupAL tg.taskLayers d).isSome) ∧
      lookupAL tg.taskLayers t.id =
        some (depMax tg.taskLayers t.depends (-1) + 1))

/-- Graphs reachable from `NewTaskGraph` by successful `AddTask` calls. -/
inductive Built {V : Type _} : TaskGraph V → Prop where
  | base : Built (NewTaskGraph V)
  | step {tg tg' : TaskGraph V} {t : Task V} :
      Built tg → AddTask tg t = (tg', none) → Built tg'

/-- Replace the work function of the task with the given ID, all other
fields untouched.  "The work function is never invoked" is stated as: the
observable outcome of the layer does not depend on that work function. -/
def setWork {V : Type _} (tg : TaskGraph V) (tid : String)
    (w : List (String × V) → Except String V) : TaskGraph V :=
  { tg with
    store :=
      { tg.store with
        vertices :=
          tg.store.vertices.map
            (fun u => if u.id == tid then { u with work := w } else u) } }

/-- Does `a` occur strictly before (the first occurrence of) `b` in the
list? -/
def precedes : List String → String → String → Bool
  | [], _, _ => false
  | x :: rest, a, b =>
    if x == a then rest.contains b
    else if x == b then false
    else precedes rest a b

/-- Does the order place the source of every edge before its target? -/
def respectsEdges (edges : List (String × String)) (l : List String) : Bool :=
  edges.all (fun e => precedes l e.1 e.2)

/-- Is `l` a valid topological order of the store: a permutation of all
vertex IDs in which every edge points forward?  The underlying sort may
return any such linearization. -/
def isTopoOrder {V : Type _} (st : Store V) (l : List String) : Bool :=
  (vertexIds st).isPerm l && respectsEdges st.edges l

/-! ### Association list lemmas -/

theorem lookupAL_insertAL_self {α : Type _} (m : List (String × α)) (k : String)
    (v : α) : lookupAL (insertAL m k v) k = some v := by
  induction m with
  | nil => simp [insertAL, lookupAL]
  | cons p rest ih =>
    by_cases h : p.1 = k
    · simp [insertAL, h, lookupAL]
    · simp [insertAL, h, lookupAL, ih]

theorem lookupAL_insertAL_ne {α : Type _} (m : List (String × α)) (k k' : String)
    (v : α) (h : k' ≠ k) : lookupAL (insertAL m k v) k' = lookupAL m k' := by
  induction m with
  | nil => simp [insertAL, lookupAL, Ne.symm h]
  | cons p rest ih =>
    by_cases h1 : p.1 = k
    · simp [insertAL, h1, lookupAL, Ne.symm h]
    · by_cases h2 : p.1 = k'
      · simp [insertAL, h1, lookupAL, h2, h]
      · simp [insertAL, h1, lookupAL, h2, ih]

theorem lookupAL_none_iff {α : Type _} (m : List (String × α)) (k : String) :
    lookupAL m k = none ↔ k ∉ m.map Prod.fst := by
  induction m with
  | nil => simp [lookupAL]
  | cons p rest ih =>
    by_cases h : p.1 = k
    · simp [lookupAL, h]
    · simp [lookupAL, h, ih, Ne.symm h]

theorem lookupAL_mem {α : Type _} (m : List (String × α)) (k : String) (v : α)
    (h : lookupAL m k = some v) : (k, v) ∈ m := by
  induction m with
  | nil => simp [lookupAL] at h
  | cons p rest ih =>
    by_cases h1 : p.1 = k
    · simp [lookupAL, h1] at h
      subst h1
      subst h
      exact List.mem_cons_self _ _
    · simp [lookupAL, h1] at h
      exact List.mem_cons_of_mem _ (ih h)

theorem lookupAL_mem_keys {α : Type _} (m : List (String × α)) (k : String) (v : α)
    (h : lookupAL m k = some v) : k ∈ m.map Prod.fst := by
  have := lookupAL_mem m k v h
  exact List.mem_map.mpr ⟨(k, v), this, rfl⟩

theorem lookupAL_of_mem_nodup {α : Type _} (m : List (String × α)) (k : String)
    (v : α) (hnd : (m.map Prod.fst).Nodup) (h : (k, v) ∈ m) :
    lookupAL m k = some v := by
  induction m with
  | nil => simp at h
  | cons p rest ih =>
    simp only [List.map_cons, List.nodup_cons] at hnd
    rcases List.mem_cons.mp h with h1 | h1
    · rw [← h1]
      simp [lookupAL]
    · have hk : k ∈ rest.map Prod.fst := List.mem_map.mpr ⟨(k, v), h1, rfl⟩
      have hne : p.1 ≠ k := by
        intro he
        exact hnd.1 (he ▸ hk)
      simp [lookupAL, hne, ih hnd.2 h1]

theorem lookupAL_append {α : Type _} (m l2 : List (String × α)) (k : String) :
    lookupAL (m ++ l2) k =
      (match lookupAL m k with
       | some v => some v
       | none => lookupAL l2 k) := by
  induction m with
  | nil => simp [lookupAL]
  | cons p rest ih =>
    by_cases h : p.1 = k
    · simp [lookupAL, h]
    · simp [lookupAL, h, ih]

theorem insertAL_fresh {α : Type _} (m : List (String × α)) (k : String) (v : α)
    (h : lookupAL m k = none) : insertAL m k v = m ++ [(k, v)] := by
  induction m with
  | nil => simp [insertAL]
  | cons p rest ih =>
    by_cases h1 : p.1 = k
    · simp [lookupAL, h1] at h
    · simp [lookupAL, h1] at h
      simp [insertAL, h1, ih h]

theorem keys_insertAL_fresh {α : Type _} (m : List (String × α)) (k : String)
    (v : α) (h : lookupAL m k = none) :
    (insertAL m k v).map Prod.fst = m.map Prod.fst ++ [k] := by
  rw [insertAL_fresh m k v h, List.map_append]
  rfl

/-! ### Fold-maximum lemmas -/

theorem depMax_ge (layers : List (String × Int)) :
    ∀ (deps : List String) (m : Int), m ≤ depMax layers deps m := by
  intro deps
  induction deps with
  | nil => intro m; simp [depMax]
  | cons d rest ih =>
    intro m
    have step : m ≤ (match lookupAL layers d with
        | some l => if m < l then l else m
        | none => m) := by
      cases h : lookupAL layers d with
      | none => simp
      | some l =>
        by_cases h1 : m < l
        · simp [h1]; omega
        · simp [h1]
    calc m ≤ _ := step
      _ ≤ _ := ih _

theorem depMax_bound (layers : List (String × Int)) :
    ∀ (deps : List String) (m : Int) (d : String) (l : Int), d ∈ deps →
      lookupAL layers d = some l → l ≤ depMax layers deps m := by
  intro deps
  induction deps with
  | nil => intro m d l hd; simp at hd
  | cons d0 rest ih =>
    intro m d l hd hl
    rcases List.mem_cons.mp hd with h | h
    · subst h
      simp only [depMax, hl]
      have : l ≤ (if m < l then l else m) := by
        by_cases h1 : m < l
        · simp [h1]
        · simp [h1]; omega
      exact le_trans this (depMax_ge layers rest _)
    · simp only [depMax]
      exact ih _ d l h hl

theorem depMax_attain (layers : List (String × Int)) :
    ∀ (deps : List String) (m : Int),
      depMax layers deps m = m ∨
        ∃ d ∈ deps, lookupAL layers d = some (depMax layers deps m) := by
  intro deps
  induction deps with
  | nil => intro m; left; simp [depMax]
  | cons d0 rest ih =>
    intro m
    cases h : lookupAL layers d0 with
    | none =>
      rcases ih m with h1 | ⟨d, hd, hl⟩
      · left; simpa [depMax, h] using h1
      · right; exact ⟨d, List.mem_cons_of_mem _ hd, by simpa [depMax, h] using hl⟩
    | some l =>
      by_cases h1 : m < l
      · rcases ih l with h2 | ⟨d, hd, hl⟩
        · right
          refine ⟨d0, List.mem_cons_self _ _, ?_⟩
          have : depMax layers (d0 :: rest) m = depMax layers rest l := by
            simp [depMax, h, h1]
          rw [this, h2, h]
        · right
          refine ⟨d, List.mem_cons_of_mem _ hd, ?_⟩
          have : depMax layers (d0 :: rest) m = depMax layers rest l := by
            simp [depMax, h, h1]
          rw [this]
          exact hl
      · rcases ih m with h2 | ⟨d, hd, hl⟩
        · left; simpa [depMax, h, h1] using h2
        · right
          refine ⟨d, List.mem_cons_of_mem _ hd, ?_⟩
          simpa [depMax, h, h1] using hl

theorem depMax_congr (layers layers' : List (String × Int)) :
    ∀ (deps : List String) (m : Int),
      (∀ d ∈ deps, lookupAL layers' d = lookupAL layers d) →
      depMax layers' deps m = depMax layers deps m := by
  intro deps
  induction deps with
  | nil => intro m _; simp [depMax]
  | cons d0 rest ih =>
    intro m h
    have h0 : lookupAL layers' d0 = lookupAL layers d0 :=
      h d0 (List.mem_cons_self _ _)
    simp only [depMax, h0]
    exact ih _ (fun d hd => h d (List.mem_cons_of_mem _ hd))

theorem foldlMaxI_ge :
    ∀ (l : List (String × Int)) (m : Int),
      m ≤ l.foldl (fun m p => if m < p.2 then p.2 else m) m := by
  intro l
  induction l with
  | nil => intro m; simp
  | cons p rest ih =>
    intro m
    have step : m ≤ (if m < p.2 then p.2 else m) := by
      by_cases h : m < p.2
      · simp [h]; omega
      · simp [h]
    exact le_trans step (ih _)

theorem maxLayerOf_nonneg (tls : List (String × Int)) : 0 ≤ maxLayerOf tls :=
  foldlMaxI_ge tls 0

/-! ### Store and topological-sort lemmas -/


theorem addVertex_ok {V : Type _} (st : Store V) (t : Task V) (st' : Store V)
    (h : addVertex st t = Except.ok st') :
    st'.vertices = st.vertices ++ [t] ∧ st'.edges = st.edges ∧
      t.id ∉ vertexIds st := by
  unfold addVertex at h
  split at h
  case isTrue => exact absurd h (by simp)
  case isFalse hc =>
    cases h
    exact ⟨rfl, rfl, by simpa using hc⟩

theorem addEdge_ok {V : Type _} (st : Store V) (s t : String) (st' : Store V)
    (h : addEdge st s t = Except.ok st') :
    st'.vertices = st.vertices ∧ st'.edges = st.edges ++ [(s, t)] ∧
      s ∈ vertexIds st ∧ t ∈ vertexIds st := by
  unfold addEdge at h
  split at h
  case isTrue => exact absurd h (by simp)
  case isFalse hs =>
    split at h
    case isTrue => exact absurd h (by simp)
    case isFalse ht =>
      split at h
      case isTrue => exact absurd h (by simp)
      case isFalse he =>
        cases h
        exact ⟨rfl, rfl, by simpa using hs, by simpa using ht⟩

/-- Both outcomes of the dependency loop only append to the store: the
vertices are untouched and the edges grow by edges targeting the new task. -/
theorem addEdgesAndLayers_store {V : Type _} (layers : List (String × Int))
    (tid : String) :
    ∀ (deps : List String) (st : Store V) (m : Int),
      (addEdgesAndLayers layers tid st deps m).1.vertices = st.vertices ∧
      ∃ es, (addEdgesAndLayers layers tid st deps m).1.edges = st.edges ++ es ∧
        ∀ e ∈ es, e.2 = tid ∧ e.1 ∈ deps := by
  intro deps
  induction deps with
  | nil =>
    intro st m
    simp only [addEdgesAndLayers]
    exact ⟨by simp, ⟨[], by simp, by simp⟩⟩
  | cons dep rest ih =>
    intro st m
    cases hedge : addEdge st dep tid with
    | error e =>
      simp only [addEdgesAndLayers, hedge]
      exact ⟨by simp, ⟨[], by simp, by simp⟩⟩
    | ok st1 =>
      obtain ⟨hv, he, _, _⟩ := addEdge_ok st dep tid st1 hedge
      cases hl : lookupAL layers dep with
      | some l =>
        simp only [addEdgesAndLayers, hedge, hl]
        obtain ⟨ihv, es, ihe, ihprop⟩ := ih st1 (if m < l then l else m)
        refine ⟨by rw [ihv, hv], (dep, tid) :: es, ?_, ?_⟩
        · rw [ihe, he, List.append_assoc]; rfl
        · intro e hmem
          rcases List.mem_cons.mp hmem with h1 | h1
          · subst h1; exact ⟨rfl, List.mem_cons_self _ _⟩
          · obtain ⟨h2, h3⟩ := ihprop e h1
            exact ⟨h2, List.mem_cons_of_mem _ h3⟩
      | none =>
        simp only [addEdgesAndLayers, hedge, hl]
        refine ⟨hv, [(dep, tid)], by rw [he], ?_⟩
        intro e hmem
        rcases List.mem_cons.mp hmem with h1 | h1
        · subst h1; exact ⟨rfl, List.mem_cons_self _ _⟩
        · simp at h1

/-- Characterisation of a successful dependency loop: vertices untouched,
edges grown exactly by `dep → tid` edges, every dependency present in the
store and in the layer map, and the returned maximum is the fold of the
dependencies' layers. -/
theorem addEdgesAndLayers_ok {V : Type _} (layers : List (String × Int))
    (tid : String) :
    ∀ (deps : List String) (st st' : Store V) (m m' : Int),
      addEdgesAndLayers layers tid st deps m = (st', Except.ok m') →
      st'.vertices = st.vertices ∧
      (∃ es, st'.edges = st.edges ++ es ∧
        ∀ e ∈ es, e.2 = tid ∧ e.1 ∈ deps ∧ (lookupAL layers e.1).isSome) ∧
      (∀ d ∈ deps, (lookupAL layers d).isSome ∧ d ∈ vertexIds st) ∧
      m' = depMax layers deps m := by
  intro deps
  induction deps with
  | nil =>
    intro st st' m m' h
    simp only [addEdgesAndLayers] at h
    cases h
    exact ⟨rfl, ⟨[], by simp, by simp⟩, by simp, by simp [depMax]⟩
  | cons dep rest ih =>
    intro st st' m m' h
    cases hedge : addEdge st dep tid with
    | error e => simp [addEdgesAndLayers, hedge] at h
    | ok st1 =>
      obtain ⟨hv, he, hdep, _⟩ := addEdge_ok st dep tid st1 hedge
      cases hl : lookupAL layers dep with
      | none => simp [addEdgesAndLayers, hedge, hl] at h
      | some l =>
        simp only [addEdgesAndLayers, hedge, hl] at h
        obtain ⟨ihv, ⟨es, ihe, ihprop⟩, ihdeps, ihm⟩ := ih st1 st' _ m' h
        refine ⟨by rw [ihv, hv], ⟨(dep, tid) :: es, ?_, ?_⟩, ?_, ?_⟩
        · rw [ihe, he, List.append_assoc]; rfl
        · intro e hmem
          rcases List.mem_cons.mp hmem with h1 | h1
          · subst h1
            exact ⟨rfl, List.mem_cons_self _ _, by simp [hl]⟩
          · obtain ⟨h2, h3, h4⟩ := ihprop e h1
            exact ⟨h2, List.mem_cons_of_mem _ h3, h4⟩
        · intro d hd
          rcases List.mem_cons.mp hd with h1 | h1
          · subst h1; exact ⟨by simp [hl], hdep⟩
          · obtain ⟨h2, h3⟩ := ihdeps d h1
            have hvid : vertexIds st1 = vertexIds st := by
              unfold vertexIds; rw [hv]
            exact ⟨h2, hvid ▸ h3⟩
        · rw [ihm]; simp [depMax, hl]

/-- On a forward-closed vertex order, Kahn's algorithm never gets stuck and
returns exactly that order. -/
theorem kahnAux_ok_of_forwardClosed (edges : List (String × String)) :
    ∀ (ids : List String), forwardClosed edges ids →
      kahnAux edges ids.length ids = Except.ok ids := by
  intro ids
  induction ids with
  | nil => intro _; rfl
  | cons v rest ih =>
    intro hfc
    obtain ⟨hhead, htail⟩ := hfc
    have hni : hasIncoming edges (v :: rest) v = false := by
      rw [Bool.eq_false_iff]
      intro hcontra
      obtain ⟨e, he, hcond⟩ := List.any_eq_true.mp hcontra
      obtain ⟨h2, h1⟩ := Bool.and_eq_true_iff.mp hcond
      exact hhead e he (beq_iff_eq.mp h2) (by simpa using h1)
    have hfind :
        (v :: rest).find? (fun x => !hasIncoming edges (v :: rest) x) = some v :=
      List.find?_cons_of_pos _ (by simp [hni])
    simp only [List.length_cons, kahnAux, hfind, List.erase_cons_head]
    rw [ih htail]
    rfl

theorem topoSort_ok_of_forwardClosed {V : Type _} (st : Store V)
    (h : forwardClosed st.edges (vertexIds st)) :
    topoSort st = Except.ok (vertexIds st) :=
  kahnAux_ok_of_forwardClosed st.edges (vertexIds st) h

/-- Extending a forward-closed order by a fresh vertex whose new edges all
point to it keeps the order forward-closed. -/
theorem forwardClosed_append (edges newE : List (String × String)) (tid : String) :
    ∀ (ids : List String), forwardClosed edges ids → tid ∉ ids →
      (∀ e ∈ edges, e.1 ≠ tid ∧ e.2 ≠ tid) →
      (∀ e ∈ newE, e.2 = tid ∧ e.1 ≠ tid) →
      forwardClosed (edges ++ newE) (ids ++ [tid]) := by
  intro ids
  induction ids with
  | nil =>
    intro _ _ hold hnew
    refine ⟨?_, trivial⟩
    intro e he h2
    rcases List.mem_append.mp he with h1 | h1
    · exact absurd h2 (hold e h1).2
    · intro hmem
      exact (hnew e h1).2 (List.mem_singleton.mp hmem)
  | cons v rest ih =>
    intro hfc hni hold hnew
    obtain ⟨hhead, htail⟩ := hfc
    have hne : tid ≠ v := fun h => hni (h ▸ List.mem_cons_self _ _)
    refine ⟨?_, ih htail (fun h => hni (List.mem_cons_of_mem _ h)) hold hnew⟩
    intro e he h2
    rcases List.mem_append.mp he with h1 | h1
    · intro hmem
      rcases List.mem_cons.mp hmem with hm | hm
      · exact hhead e h1 h2 (hm ▸ List.mem_cons_self _ _)
      · rcases List.mem_append.mp hm with hm1 | hm1
        · exact hhead e h1 h2 (List.mem_cons_of_mem _ hm1)
        · rcases List.mem_singleton.mp hm1
          exact (hold e h1).1 rfl
    · exact absurd ((hnew e h1).1.symm.trans h2) hne

theorem maxLayerOf_bound (tls : List (String × Int)) (p : String × Int)
    (hp : p ∈ tls) : p.2 ≤ maxLayerOf tls := by
  have gen : ∀ (l : List (String × Int)) (m : Int), p ∈ l →
      p.2 ≤ l.foldl (fun m q => if m < q.2 then q.2 else m) m := by
    intro l
    induction l with
    | nil => intro m h; simp at h
    | cons q rest ih =>
      intro m h
      rcases List.mem_cons.mp h with h1 | h1
      · subst h1
        have step : p.2 ≤ (if m < p.2 then p.2 else m) := by
          by_cases h1 : m < p.2
          · simp [h1]
          · simp [h1]; omega
        exact le_trans step (foldlMaxI_ge _ _)
      · exact ih _ h1
  exact gen tls 0 hp

/-! ### The invariant maintained by successful `AddTask` calls -/

/-- Derived lookup lemmas for maps extended on the right. -/
theorem lookupAL_append_some {α : Type _} (m l2 : List (String × α)) (k : String)
    (v : α) (h : lookupAL m k = some v) : lookupAL (m ++ l2) k = some v := by
  rw [lookupAL_append, h]

theorem lookupAL_append_of_isSome {α : Type _} (m l2 : List (String × α))
    (k : String) (h : (lookupAL m k).isSome) :
    lookupAL (m ++ l2) k = lookupAL m k := by
  cases hv : lookupAL m k with
  | none => rw [hv] at h; simp at h
  | some v => exact lookupAL_append_some m l2 k v hv



theorem checkAcyclic_fst {V : Type _} (tg : TaskGraph V) :
    (checkAcyclic tg).1 = tg := by
  unfold checkAcyclic
  cases topoSort tg.store <;> rfl

theorem graphInv_new (V : Type _) : GraphInv (NewTaskGraph V) := by
  refine ⟨?_, ?_, ?_, ?_, ?_, ?_⟩
  · exact List.nodup_nil
  · rfl
  · intro e he; simp [NewTaskGraph] at he
  · exact trivial
  · intro p hp; simp [NewTaskGraph] at hp
  · intro t ht; simp [NewTaskGraph] at ht

theorem graphInv_step {V : Type _} {tg tg' : TaskGraph V} {t : Task V}
    (inv : GraphInv tg) (h : AddTask tg t = (tg', none)) : GraphInv tg' := by
  unfold AddTask at h
  cases hv : addVertex tg.store t with
  | error e => rw [hv] at h; simp at h
  | ok st1 =>
    rw [hv] at h
    dsimp only at h
    obtain ⟨hvert, hedges, hfresh⟩ := addVertex_ok _ _ _ hv
    have hids1 : vertexIds st1 = vertexIds tg.store ++ [t.id] := by
      unfold vertexIds; rw [hvert, List.map_append]; rfl
    have hfreshL : lookupAL tg.taskLayers t.id = none := by
      rw [lookupAL_none_iff, inv.layerKeys]
      exact hfresh
    have hnodup1 : (vertexIds tg.store ++ [t.id]).Nodup := by
      rw [List.nodup_append]
      exact ⟨inv.nodup, List.nodup_singleton _,
        fun a ha hb => hfresh ((List.mem_singleton.mp hb) ▸ ha)⟩
    have holdE : ∀ e ∈ tg.store.edges, e.1 ≠ t.id ∧ e.2 ≠ t.id := by
      intro e he
      obtain ⟨h1, h2⟩ := inv.edgeEnds e he
      exact ⟨fun hq => hfresh (hq ▸ h1), fun hq => hfresh (hq ▸ h2)⟩
    by_cases hdep : t.depends.isEmpty
    · rw [if_pos hdep] at h
      have hdepnil : t.depends = [] := List.isEmpty_iff.mp hdep
      -- the cycle check returns its argument unchanged
      have htg' : tg' = { tg with
          store := st1
          statuses := insertAL tg.statuses t.id t.status
          taskLayers := insertAL tg.taskLayers t.id 0 } := by
        have := congrArg Prod.fst h
        rw [checkAcyclic_fst] at this
        exact this.symm
      subst htg'
      have hlay : insertAL tg.taskLayers t.id 0 = tg.taskLayers ++ [(t.id, 0)] :=
        insertAL_fresh _ _ _ hfreshL
      refine ⟨?_, ?_, ?_, ?_, ?_, ?_⟩
      · simpa [hids1] using hnodup1
      · show (insertAL tg.taskLayers t.id 0).map Prod.fst = vertexIds st1
        rw [keys_insertAL_fresh _ _ _ hfreshL, inv.layerKeys, hids1]
      · intro e he
        rw [show st1.edges = tg.store.edges from hedges] at he
        obtain ⟨h1, h2⟩ := inv.edgeEnds e he
        rw [hids1]
        exact ⟨List.mem_append_left _ h1, List.mem_append_left _ h2⟩
      · show forwardClosed st1.edges (vertexIds st1)
        rw [hids1, show st1.edges = tg.store.edges from hedges,
          show tg.store.edges = tg.store.edges ++ [] by simp]
        exact forwardClosed_append _ _ _ _ inv.forward hfresh holdE (by simp)
      · intro p hp
        rw [hlay] at hp
        rcases List.mem_append.mp hp with h1 | h1
        · exact inv.layersNonneg p h1
        · rcases List.mem_singleton.mp h1 with rfl
          simp
      · intro u hu
        rw [hvert] at hu
        rcases List.mem_append.mp hu with h1 | h1
        · -- an old task: all lookups are preserved by the fresh append
          obtain ⟨c1, c2⟩ := inv.layersCorrect u h1
          constructor
          · intro hnil
            rw [hlay]
            exact lookupAL_append_some _ _ _ _ (c1 hnil)
          · intro hne
            obtain ⟨cdeps, cval⟩ := c2 hne
            have hpres : ∀ d ∈ u.depends,
                lookupAL (insertAL tg.taskLayers t.id 0) d =
                  lookupAL tg.taskLayers d := by
              intro d hd
              rw [hlay]
              exact lookupAL_append_of_isSome _ _ _ (cdeps d hd)
            refine ⟨?_, ?_⟩
            · intro d hd
              rw [hpres d hd]
              exact cdeps d hd
            · show lookupAL (insertAL tg.taskLayers t.id 0) u.id =
                some (depMax (insertAL tg.taskLayers t.id 0) u.depends (-1) + 1)
              rw [depMax_congr tg.taskLayers (insertAL tg.taskLayers t.id 0)
                u.depends (-1) hpres, hlay]
              exact lookupAL_append_some _ _ _ _ cval
        · rcases List.mem_singleton.mp h1 with rfl
          constructor
          · intro _
            exact lookupAL_insertAL_self _ _ _
          · intro hne
            exact absurd hdepnil hne
    · rw [if_neg hdep] at h
      cases hloop : addEdgesAndLayers tg.taskLayers t.id st1 t.depends (-1) with
      | mk st2 res =>
        cases res with
        | error e => rw [hloop] at h; simp at h
        | ok m =>
          rw [hloop] at h
          obtain ⟨hv2, ⟨es, he2, hesprop⟩, hdeps, hm⟩ :=
            addEdgesAndLayers_ok _ _ _ st1 st2 _ _ hloop
          have hdepne : t.depends ≠ [] := by
            intro hq
            rw [hq] at hdep
            exact hdep rfl
          have htg' : tg' = { tg with
              store := st2
              statuses := insertAL tg.statuses t.id t.status
              taskLayers := insertAL tg.taskLayers t.id (m + 1) } := by
            have := congrArg Prod.fst h
            rw [checkAcyclic_fst] at this
            exact this.symm
          subst htg'
          have hids2 : vertexIds st2 = vertexIds tg.store ++ [t.id] := by
            unfold vertexIds
            rw [hv2, hvert, List.map_append]
            rfl
          have hlay : insertAL tg.taskLayers t.id (m + 1) =
              tg.taskLayers ++ [(t.id, m + 1)] :=
            insertAL_fresh _ _ _ hfreshL
          have hsrc : ∀ e ∈ es, e.1 ∈ vertexIds tg.store ∧ e.1 ≠ t.id := by
            intro e he
            obtain ⟨-, -, hsome⟩ := hesprop e he
            have hk : e.1 ∈ tg.taskLayers.map Prod.fst := by
              cases hq : lookupAL tg.taskLayers e.1 with
              | none => rw [hq] at hsome; simp at hsome
              | some v => exact lookupAL_mem_keys _ _ _ hq
            rw [inv.layerKeys] at hk
            exact ⟨hk, fun hq => hfresh (hq ▸ hk)⟩
          have hedges2 : st2.edges = tg.store.edges ++ es := by
            rw [he2, hedges]
          refine ⟨?_, ?_, ?_, ?_, ?_, ?_⟩
          · simpa [hids2] using hnodup1
          · show (insertAL tg.taskLayers t.id (m + 1)).map Prod.fst = vertexIds st2
            rw [keys_insertAL_fresh _ _ _ hfreshL, inv.layerKeys, hids2]
          · intro e he
            rw [hedges2] at he
            rw [hids2]
            rcases List.mem_append.mp he with h1 | h1
            · obtain ⟨h2, h3⟩ := inv.edgeEnds e h1
              exact ⟨List.mem_append_left _ h2, List.mem_append_left _ h3⟩
            · obtain ⟨htgt, -, -⟩ := hesprop e h1
              exact ⟨List.mem_append_left _ (hsrc e h1).1,
                htgt ▸ List.mem_append_right _ (List.mem_singleton_self _)⟩
          · show forwardClosed st2.edges (vertexIds st2)
            rw [hids2, hedges2]
            exact forwardClosed_append _ _ _ _ inv.forward hfresh holdE
              (fun e he => ⟨(hesprop e he).1, (hsrc e he).2⟩)
          · intro p hp
            rw [hlay] at hp
            rcases List.mem_append.mp hp with h1 | h1
            · exact inv.layersNonneg p h1
            · rcases List.mem_singleton.mp h1 with rfl
              have : (-1 : Int) ≤ m := hm ▸ depMax_ge _ _ _
              simp only []
              omega
          · intro u hu
            rw [hv2, hvert] at hu
            rcases List.mem_append.mp hu with h1 | h1
            · obtain ⟨c1, c2⟩ := inv.layersCorrect u h1
              constructor
              · intro hnil
                rw [hlay]
                exact lookupAL_append_some _ _ _ _ (c1 hnil)
              · intro hne
                obtain ⟨cdeps, cval⟩ := c2 hne
                have hpres : ∀ d ∈ u.depends,
                    lookupAL (tg.taskLayers ++ [(t.id, m + 1)]) d =
                      lookupAL tg.taskLayers d := by
                  intro d hd
                  exact lookupAL_append_of_isSome _ _ _ (cdeps d hd)
                refine ⟨?_, ?_⟩
                · intro d hd
                  rw [hlay, hpres d hd]
                  exact cdeps d hd
                · show lookupAL (insertAL tg.taskLayers t.id (m + 1)) u.id =
                    some (depMax (insertAL tg.taskLayers t.id (m + 1))
                      u.depends (-1) + 1)
                  rw [hlay, depMax_congr tg.taskLayers
                    (tg.taskLayers ++ [(t.id, m + 1)]) u.depends (-1) hpres]
                  exact lookupAL_append_some _ _ _ _ cval
            · rcases List.mem_singleton.mp h1 with rfl
              constructor
              · intro hnil
                exact absurd hnil hdepne
              · intro _
                have hpres : ∀ d ∈ u.depends,
                    lookupAL (tg.taskLayers ++ [(u.id, m + 1)]) d =
                      lookupAL tg.taskLayers d := by
                  intro d hd
                  exact lookupAL_append_of_isSome _ _ _ (hdeps d hd).1
                refine ⟨?_, ?_⟩
                · intro d hd
                  rw [hlay, hpres d hd]
                  exact (hdeps d hd).1
                · show lookupAL (insertAL tg.taskLayers u.id (m + 1)) u.id =
                    some (depMax (insertAL tg.taskLayers u.id (m + 1))
                      u.depends (-1) + 1)
                  rw [hlay, depMax_congr tg.taskLayers
                    (tg.taskLayers ++ [(u.id, m + 1)]) u.depends (-1) hpres, ← hm,
                    lookupAL_append, hfreshL]
                  simp [lookupAL]

theorem built_graphInv {V : Type _} {tg : TaskGraph V} (h : Built tg) :
    GraphInv tg := by
  induction h with
  | base => exact graphInv_new V
  | step _ hstep ih => exact graphInv_step ih hstep

/-- On every graph built by successful `AddTask` calls the topological sort
succeeds and returns the vertex insertion order. -/
theorem built_topoSort {V : Type _} {tg : TaskGraph V} (h : Built tg) :
    topoSort tg.store = Except.ok (vertexIds tg.store) :=
  topoSort_ok_of_forwardClosed tg.store (built_graphInv h).forward

/-- The diamond graph is reachable by successful `AddTask` calls. -/
theorem built_diamond : Built diamond := by
  have h0 : Built (NewTaskGraph Nat) := Built.base
  have h1 : Built diamond1 :=
    Built.step h0 (show AddTask (NewTaskGraph Nat) taskA = (diamond1, none) from rfl)
  have h2 : Built diamond2 :=
    Built.step h1 (show AddTask diamond1 taskB = (diamond2, none) from rfl)
  have h3 : Built diamond3 :=
    Built.step h2 (show AddTask diamond2 taskC = (diamond3, none) from rfl)
  exact Built.step h3 (show AddTask diamond3 taskD = (diamond, none) from rfl)

/-- C1: Layer invariant.  After every successful `AddTask` call (i.e. on
every graph built by successful `AddTask` calls), every registered task has
layer 0 when it has no dependencies, and otherwise layer `1 + m` where `m`
is the maximum of its declared dependencies' layers. -/
theorem addTask_layer_invariant {V : Type _} {tg : TaskGraph V} (hb : Built tg)
    {t : Task V} (ht : t ∈ tg.store.vertices) :
    (t.depends = [] → lookupAL tg.taskLayers t.id = some 0) ∧
    (t.depends ≠ [] → ∃ m : Int,
      lookupAL tg.taskLayers t.id = some (1 + m) ∧
      (∀ d ∈ t.depends, ∃ l, lookupAL tg.taskLayers d = some l ∧ l ≤ m) ∧
      (∃ d ∈ t.depends, lookupAL tg.taskLayers d = some m)) := by
  have inv := built_graphInv hb
  obtain ⟨c1, c2⟩ := inv.layersCorrect t ht
  refine ⟨c1, ?_⟩
  intro hne
  obtain ⟨cdeps, cval⟩ := c2 hne
  refine ⟨depMax tg.taskLayers t.depends (-1), ?_, ?_, ?_⟩
  · rw [cval, Int.add_comm]
  · intro d hd
    cases hl : lookupAL tg.taskLayers d with
    | none =>
      have := cdeps d hd
      rw [hl] at this
      simp at this
    | some l =>
      exact ⟨l, rfl, depMax_bound tg.taskLayers t.depends (-1) d l hd hl⟩
  · rcases depMax_attain tg.taskLayers t.depends (-1) with hbase | hatt
    · -- impossible: some dependency exists and all layers are non-negative
      obtain ⟨d, hd⟩ := List.exists_mem_of_ne_nil t.depends hne
      cases hl : lookupAL tg.taskLayers d with
      | none =>
        have := cdeps d hd
        rw [hl] at this
        simp at this
      | some l =>
        have hle : l ≤ depMax tg.taskLayers t.depends (-1) :=
          depMax_bound tg.taskLayers t.depends (-1) d l hd hl
        have hnn : 0 ≤ l := inv.layersNonneg (d, l) (lookupAL_mem _ _ _ hl)
        rw [hbase] at hle
        omega
    · exact hatt

/-- C1 witness: the invariant instantiated on taskD of the diamond graph. -/
theorem addTask_layer_invariant_witness :
    ∃ m : Int,
      lookupAL diamond.taskLayers taskD.id = some (1 + m) ∧
      (∀ d ∈ taskD.depends, ∃ l, lookupAL diamond.taskLayers d = some l ∧ l ≤ m) ∧
      (∃ d ∈ taskD.depends, lookupAL diamond.taskLayers d = some m) := by
  have hD : taskD ∈ diamond.store.vertices := by
    show taskD ∈ [taskA, taskB, taskC, taskD]
    exact List.mem_cons_of_mem _ (List.mem_cons_of_mem _
      (List.mem_cons_of_mem _ (List.mem_cons_self _ _)))
  exact (addTask_layer_invariant built_diamond hD).2 (by decide)

/-- Every `AddTask` call only appends to the store, never removes
(no rollback on failure). -/
theorem addTask_store_grow {V : Type _} (tg : TaskGraph V) (t : Task V) :
    ∃ vs es, (AddTask tg t).1.store.vertices = tg.store.vertices ++ vs ∧
      (AddTask tg t).1.store.edges = tg.store.edges ++ es := by
  unfold AddTask
  cases hv : addVertex tg.store t with
  | error e => exact ⟨[], [], by simp, by simp⟩
  | ok st1 =>
    obtain ⟨hvert, hedges, -⟩ := addVertex_ok _ _ _ hv
    dsimp only
    by_cases hdep : t.depends.isEmpty
    · rw [if_pos hdep]
      refine ⟨[t], [], ?_, ?_⟩
      · rw [checkAcyclic_fst]
        exact hvert
      · rw [checkAcyclic_fst]
        simpa using hedges
    · rw [if_neg hdep]
      obtain ⟨hlv, es0, hle, -⟩ :=
        addEdgesAndLayers_store tg.taskLayers t.id t.depends st1 (-1)
      cases hloop : addEdgesAndLayers tg.taskLayers t.id st1 t.depends (-1) with
      | mk st2 res =>
        rw [hloop] at hlv hle
        cases res with
        | error e =>
          refine ⟨[t], es0, ?_, ?_⟩
          · show st2.vertices = tg.store.vertices ++ [t]
            rw [hlv, hvert]
          · show st2.edges = tg.store.edges ++ es0
            rw [hle, hedges]
        | ok m =>
          refine ⟨[t], es0, ?_, ?_⟩
          · rw [checkAcyclic_fst]
            show st2.vertices = tg.store.vertices ++ [t]
            rw [hlv, hvert]
          · rw [checkAcyclic_fst]
            show st2.edges = tg.store.edges ++ es0
            rw [hle, hedges]

/-- C5 (amended): when an `AddTask` call leaves the graph cyclic (so that a
subsequent `GetExecutionOrder` fails with a cycle error), the call itself
failed, and everything it inserted remains in the store (no rollback). -/
theorem addTask_cycle_fails_no_rollback {V : Type _} {tg tg' : TaskGraph V}
    {t : Task V} {err : Option String} {e : String} (hb : Built tg)
    (h : AddTask tg t = (tg', err))
    (hcyc : GetExecutionOrder tg' = Except.error e) :
    err.isSome ∧ ∃ vs es, tg'.store.vertices = tg.store.vertices ++ vs ∧
      tg'.store.edges = tg.store.edges ++ es := by
  constructor
  · cases herr : err with
    | some _ => rfl
    | none =>
      exfalso
      have hb' : Built tg' := Built.step hb (herr ▸ h)
      have hok := built_topoSort hb'
      unfold GetExecutionOrder at hcyc
      rw [hok] at hcyc
      simp at hcyc
  · obtain ⟨vs, es, h1, h2⟩ := addTask_store_grow tg t
    rw [h] at h1 h2
    exact ⟨vs, es, h1, h2⟩

/-- C5 witness: adding the self-dependent task to the empty graph leaves a
cyclic store; the call failed and the inserted vertex and edge remain. -/
theorem addTask_cycle_fails_no_rollback_witness :
    ((AddTask (NewTaskGraph Nat) taskSelf).2).isSome ∧
      ∃ vs es, selfLoopGraph.store.vertices = (NewTaskGraph Nat).store.vertices ++ vs ∧
        selfLoopGraph.store.edges = (NewTaskGraph Nat).store.edges ++ es := by
  exact addTask_cycle_fails_no_rollback Built.base
    (show AddTask (NewTaskGraph Nat) taskSelf =
      (selfLoopGraph, some "dependency task A not found in layer map") from rfl)
    (show GetExecutionOrder selfLoopGraph =
      Except.error "topological sort: graph contains a cycle" from rfl)

/-- C5 counterexample: the `AddTask` call that makes the graph cyclic (a
self-dependency) does not fail with the `CyclicGraph` ("invalid task
graph") error — it fails with the layer-map error, before the cycle check —
and it records no layer entry for the task, while the inserted vertex and
self-loop edge remain and `GetExecutionOrder` subsequently reports the
cycle. -/
theorem addTask_cycle_error_counterexample :
    (AddTask (NewTaskGraph Nat) taskSelf).2 =
      some "dependency task A not found in layer map" ∧
    (AddTask (NewTaskGraph Nat) taskSelf).2 ≠
      some ("invalid task graph: " ++ "topological sort: graph contains a cycle") ∧
    selfLoopGraph.store.edges = [("A", "A")] ∧
    lookupAL selfLoopGraph.taskLayers "A" = none ∧
    GetExecutionOrder selfLoopGraph =
      Except.error "topological sort: graph contains a cycle" := by
  exact ⟨rfl, by decide, rfl, rfl, rfl⟩

/-- C6 (amended): registering a task with a dependency that was never
itself added to the graph always fails, before any execution is attempted
(the error comes from the edge insertion, "failed to add dependency: …
vertex not found", not from the layer-map check). -/
theorem addTask_unknown_dependency_fails {V : Type _} {tg : TaskGraph V}
    {t : Task V} {d : String} (hb : Built tg) (hd : d ∈ t.depends)
    (hmiss : d ∉ vertexIds tg.store) : ((AddTask tg t).2).isSome := by
  have inv := built_graphInv hb
  unfold AddTask
  cases hv : addVertex tg.store t with
  | error e => rfl
  | ok st1 =>
    dsimp only
    have hdep : ¬t.depends.isEmpty = true := by
      cases hq : t.depends with
      | nil => rw [hq] at hd; simp at hd
      | cons a as => simp [hq]
    rw [if_neg hdep]
    cases hloop : addEdgesAndLayers tg.taskLayers t.id st1 t.depends (-1) with
    | mk st2 res =>
      cases res with
      | error e => rfl
      | ok m =>
        exfalso
        obtain ⟨-, -, hdeps, -⟩ :=
          addEdgesAndLayers_ok tg.taskLayers t.id t.depends st1 st2 (-1) m hloop
        have hsome := (hdeps d hd).1
        have hk : d ∈ tg.taskLayers.map Prod.fst := by
          cases hq : lookupAL tg.taskLayers d with
          | none => rw [hq] at hsome; simp at hsome
          | some v => exact lookupAL_mem_keys _ _ _ hq
        rw [inv.layerKeys] at hk
        exact hmiss hk

/-- C6 witness: adding a task depending on the never-registered "X" to the
empty graph fails. -/
theorem addTask_unknown_dependency_fails_witness :
    ((AddTask (NewTaskGraph Nat) taskMissingDep).2).isSome :=
  addTask_unknown_dependency_fails Built.base
    (show "X" ∈ taskMissingDep.depends by decide)
    (show "X" ∉ vertexIds (NewTaskGraph Nat).store by decide)

/-- C6 counterexample: the error surfaced for a never-registered dependency
is the wrapped edge-insertion error, not the message
"dependency task X not found in layer map" the claim states. -/
theorem addTask_unknown_dependency_message_counterexample :
    (AddTask (NewTaskGraph Nat) taskMissingDep).2 =
      some "failed to add dependency: source vertex X: vertex not found" ∧
    "failed to add dependency: source vertex X: vertex not found" ≠
      "dependency task X not found in layer map" := by
  exact ⟨rfl, by decide⟩

/-! ### Lemmas about the sequential layer execution -/

theorem runTask_frame {V : Type _} (tg : TaskGraph V) (rs : List (String × V))
    (id : String) :
    (runTask tg rs id).1.store = tg.store ∧
    (runTask tg rs id).1.taskLayers = tg.taskLayers ∧
    (runTask tg rs id).1.opts = tg.opts := by
  cases hv : vertexLookup tg.store id with
  | none => simp [runTask, hv]
  | some task =>
    by_cases hc : conditionBlocks task (collectInputs task.depends rs)
    · simp [runTask, hv, if_pos hc, setStatus]
    · cases hw : task.work (collectInputs task.depends rs) with
      | error e => simp [runTask, hv, if_neg hc, hw, setStatus]
      | ok v => simp [runTask, hv, if_neg hc, hw, setStatus]

theorem runTask_statuses_ne {V : Type _} (tg : TaskGraph V) (rs : List (String × V))
    (id k : String) (hk : k ≠ id) :
    lookupAL (runTask tg rs id).1.statuses k = lookupAL tg.statuses k := by
  cases hv : vertexLookup tg.store id with
  | none => simp only [runTask, hv]
  | some task =>
    by_cases hc : conditionBlocks task (collectInputs task.depends rs)
    · simp only [runTask, hv, if_pos hc]
      exact lookupAL_insertAL_ne _ _ _ _ hk
    · cases hw : task.work (collectInputs task.depends rs) with
      | error e =>
        simp only [runTask, hv, if_neg hc, hw]
        show lookupAL (insertAL (insertAL tg.statuses id TaskStatus.running)
          id TaskStatus.failed) k = lookupAL tg.statuses k
        rw [lookupAL_insertAL_ne _ _ _ _ hk, lookupAL_insertAL_ne _ _ _ _ hk]
      | ok v =>
        simp only [runTask, hv, if_neg hc, hw]
        show lookupAL (insertAL (insertAL tg.statuses id TaskStatus.running)
          id TaskStatus.completed) k = lookupAL tg.statuses k
        rw [lookupAL_insertAL_ne _ _ _ _ hk, lookupAL_insertAL_ne _ _ _ _ hk]

theorem runTask_entry_key {V : Type _} (tg : TaskGraph V) (rs : List (String × V))
    (id : String) (p : String × V) (h : (runTask tg rs id).2.1 = some p) :
    p.1 = id := by
  cases hv : vertexLookup tg.store id with
  | none => simp [runTask, hv] at h
  | some task =>
    by_cases hc : conditionBlocks task (collectInputs task.depends rs)
    · simp [runTask, hv, if_pos hc] at h
    · cases hw : task.work (collectInputs task.depends rs) with
      | error e => simp [runTask, hv, if_neg hc, hw] at h
      | ok v =>
        simp only [runTask, hv, if_neg hc, hw] at h
        have := Option.some.inj h
        rw [← this]

theorem runTask_err_form {V : Type _} (tg : TaskGraph V) (rs : List (String × V))
    (id : String) (e : String) (h : (runTask tg rs id).2.2 = some e) :
    (∃ msg, e = "task " ++ id ++ " failed: " ++ msg) ∧
    lookupAL (runTask tg rs id).1.statuses id = some TaskStatus.failed := by
  cases hv : vertexLookup tg.store id with
  | none => simp [runTask, hv] at h
  | some task =>
    by_cases hc : conditionBlocks task (collectInputs task.depends rs)
    · simp [runTask, hv, if_pos hc] at h
    · cases hw : task.work (collectInputs task.depends rs) with
      | error e0 =>
        simp only [runTask, hv, if_neg hc, hw] at h ⊢
        exact ⟨⟨e0, (Option.some.inj h).symm⟩, lookupAL_insertAL_self _ _ _⟩
      | ok v => simp [runTask, hv, if_neg hc, hw] at h

theorem runTask_failed_origin {V : Type _} (tg : TaskGraph V)
    (rs : List (String × V)) (id f : String)
    (h : lookupAL (runTask tg rs id).1.statuses f = some TaskStatus.failed) :
    lookupAL tg.statuses f = some TaskStatus.failed ∨
      (f = id ∧ ((runTask tg rs id).2.2).isSome) := by
  by_cases hf : f = id
  · subst hf
    cases hv : vertexLookup tg.store f with
    | none =>
      simp only [runTask, hv] at h
      exact Or.inl h
    | some task =>
      by_cases hc : conditionBlocks task (collectInputs task.depends rs)
      · simp only [runTask, hv, if_pos hc] at h
        rw [show (setStatus tg f TaskStatus.skipped).statuses =
          insertAL tg.statuses f TaskStatus.skipped from rfl,
          lookupAL_insertAL_self] at h
        simp at h
      · cases hw : task.work (collectInputs task.depends rs) with
        | error e =>
          simp [runTask, hv, if_neg hc, hw]
        | ok v =>
          simp only [runTask, hv, if_neg hc, hw] at h
          rw [show (setStatus (setStatus tg f TaskStatus.running) f
              TaskStatus.completed).statuses =
            insertAL (insertAL tg.statuses f TaskStatus.running) f
              TaskStatus.completed from rfl,
            lookupAL_insertAL_self] at h
          simp at h
  · rw [runTask_statuses_ne tg rs id f hf] at h
    exact Or.inl h

theorem execTasks_frame {V : Type _} (rs : List (String × V)) :
    ∀ (ids : List String) (tg : TaskGraph V) (lres : List (String × V))
      (ferr : Option String),
      (execTasks rs tg ids lres ferr).1.store = tg.store ∧
      (execTasks rs tg ids lres ferr).1.taskLayers = tg.taskLayers ∧
      (execTasks rs tg ids lres ferr).1.opts = tg.opts := by
  intro ids
  induction ids with
  | nil => intro tg lres ferr; exact ⟨rfl, rfl, rfl⟩
  | cons id rest ih =>
    intro tg lres ferr
    simp only [execTasks]
    obtain ⟨h1, h2, h3⟩ := ih (runTask tg rs id).1 _ _
    obtain ⟨g1, g2, g3⟩ := runTask_frame tg rs id
    exact ⟨h1.trans g1, h2.trans g2, h3.trans g3⟩

theorem execTasks_ferr_some {V : Type _} (rs : List (String × V)) :
    ∀ (ids : List String) (tg : TaskGraph V) (lres : List (String × V))
      (e : String),
      (execTasks rs tg ids lres (some e)).2.2 = some e := by
  intro ids
  induction ids with
  | nil => intro tg lres e; rfl
  | cons id rest ih =>
    intro tg lres e
    simp only [execTasks]
    exact ih _ _ e

theorem execTasks_err_isSome {V : Type _} (rs : List (String × V))
    (ids : List String) (tg : TaskGraph V) (lres : List (String × V))
    (ferr : Option String) (h : ferr.isSome) :
    ((execTasks rs tg ids lres ferr).2.2).isSome := by
  cases ferr with
  | none => simp at h
  | some e => rw [execTasks_ferr_some rs ids tg lres e]; rfl

theorem execTasks_statuses_ne {V : Type _} (rs : List (String × V)) :
    ∀ (ids : List String) (tg : TaskGraph V) (lres : List (String × V))
      (ferr : Option String) (k : String), k ∉ ids →
      lookupAL (execTasks rs tg ids lres ferr).1.statuses k =
        lookupAL tg.statuses k := by
  intro ids
  induction ids with
  | nil => intro tg lres ferr k _; rfl
  | cons id rest ih =>
    intro tg lres ferr k hk
    have hk1 : k ≠ id := fun hq => hk (hq ▸ List.mem_cons_self _ _)
    have hk2 : k ∉ rest := fun hq => hk (List.mem_cons_of_mem _ hq)
    simp only [execTasks]
    rw [ih _ _ _ k hk2]
    exact runTask_statuses_ne tg rs id k hk1

theorem execTasks_lres_ne {V : Type _} (rs : List (String × V)) :
    ∀ (ids : List String) (tg : TaskGraph V) (lres : List (String × V))
      (ferr : Option String) (k : String), k ∉ ids →
      lookupAL (execTasks rs tg ids lres ferr).2.1 k = lookupAL lres k := by
  intro ids
  induction ids with
  | nil => intro tg lres ferr k _; rfl
  | cons id rest ih =>
    intro tg lres ferr k hk
    have hk1 : k ≠ id := fun hq => hk (hq ▸ List.mem_cons_self _ _)
    have hk2 : k ∉ rest := fun hq => hk (List.mem_cons_of_mem _ hq)
    simp only [execTasks]
    rw [ih _ _ _ k hk2]
    cases hp : (runTask tg rs id).2.1 with
    | none => rfl
    | some p =>
      have hpk : p.1 = id := runTask_entry_key tg rs id p hp
      simp only
      exact lookupAL_insertAL_ne _ _ _ _ (hpk ▸ hk1)

theorem execTasks_failed_origin {V : Type _} (rs : List (String × V)) :
    ∀ (ids : List String) (tg : TaskGraph V) (lres : List (String × V))
      (ferr : Option String) (f : String),
      lookupAL (execTasks rs tg ids lres ferr).1.statuses f =
        some TaskStatus.failed →
      lookupAL tg.statuses f = some TaskStatus.failed ∨
        (f ∈ ids ∧ ((execTasks rs tg ids lres ferr).2.2).isSome) := by
  intro ids
  induction ids with
  | nil => intro tg lres ferr f h; exact Or.inl h
  | cons id rest ih =>
    intro tg lres ferr f h
    simp only [execTasks] at h ⊢
    rcases ih _ _ _ f h with h1 | ⟨hmem, hsome⟩
    · rcases runTask_failed_origin tg rs id f h1 with h2 | ⟨hfid, hrs⟩
      · exact Or.inl h2
      · refine Or.inr ⟨hfid ▸ List.mem_cons_self _ _, ?_⟩
        apply execTasks_err_isSome
        cases ferr with
        | some e => rfl
        | none => simpa using hrs
    · exact Or.inr ⟨List.mem_cons_of_mem _ hmem, hsome⟩

theorem execTasks_err_form {V : Type _} (rs : List (String × V)) :
    ∀ (ids : List String), ids.Nodup →
      ∀ (tg : TaskGraph V) (lres : List (String × V)) (ferr : Option String)
        (e : String),
      (execTasks rs tg ids lres ferr).2.2 = some e →
      ferr = some e ∨ ∃ g ∈ ids,
        (∃ msg, e = "task " ++ g ++ " failed: " ++ msg) ∧
        lookupAL (execTasks rs tg ids lres ferr).1.statuses g =
          some TaskStatus.failed := by
  intro ids
  induction ids with
  | nil => intro _ tg lres ferr e h; exact Or.inl h
  | cons id rest ih =>
    intro hnd tg lres ferr e h
    obtain ⟨hid, hrest⟩ := List.nodup_cons.mp hnd
    cases ferr with
    | some e0 =>
      simp only [execTasks] at h ⊢
      rw [execTasks_ferr_some] at h
      exact Or.inl h
    | none =>
      simp only [execTasks] at h ⊢
      rcases ih hrest _ _ _ _ h with h1 | ⟨g, hg, hform, hstat⟩
      · obtain ⟨hform, hfail⟩ := runTask_err_form tg rs id e h1
        refine Or.inr ⟨id, List.mem_cons_self _ _, hform, ?_⟩
        rw [execTasks_statuses_ne rs rest _ _ _ id hid]
        exact hfail
      · exact Or.inr ⟨g, List.mem_cons_of_mem _ hg, hform, hstat⟩

/-! ### Layer-level and run-level lemmas -/

theorem executeLayer_fst {V : Type _} (tg : TaskGraph V) (layer : List String)
    (rs : List (String × V)) :
    (executeLayer tg layer rs).1 = (execTasks rs tg layer [] none).1 := rfl

theorem executeLayer_statuses_ne {V : Type _} (tg : TaskGraph V)
    (layer : List String) (rs : List (String × V)) (k : String) (hk : k ∉ layer) :
    lookupAL (executeLayer tg layer rs).1.statuses k = lookupAL tg.statuses k :=
  execTasks_statuses_ne rs layer tg [] none k hk

theorem executeLayer_err_some {V : Type _} (tg : TaskGraph V)
    (layer : List String) (rs : List (String × V)) (e : String)
    (h : (executeLayer tg layer rs).2.2 = some e) :
    (executeLayer tg layer rs).2.1 = none ∧
    (execTasks rs tg layer [] none).2.2 = some e := by
  cases hx : (execTasks rs tg layer [] none).2.2 with
  | none =>
    have hz : (executeLayer tg layer rs).2.2 = none := by
      unfold executeLayer
      rw [hx]
    rw [hz] at h
    exact absurd h (by simp)
  | some e0 =>
    have h21 : (executeLayer tg layer rs).2.1 = none := by
      unfold executeLayer
      rw [hx]
    have h22 : (executeLayer tg layer rs).2.2 = some e0 := by
      unfold executeLayer
      rw [hx]
    rw [h22] at h
    exact ⟨h21, h⟩

theorem executeLayer_err_none {V : Type _} (tg : TaskGraph V)
    (layer : List String) (rs : List (String × V))
    (h : (executeLayer tg layer rs).2.2 = none) :
    (execTasks rs tg layer [] none).2.2 = none := by
  cases hx : (execTasks rs tg layer [] none).2.2 with
  | none => rfl
  | some e0 =>
    have h22 : (executeLayer tg layer rs).2.2 = some e0 := by
      unfold executeLayer
      rw [hx]
    rw [h22] at h
    exact absurd h (by simp)

theorem executeLayer_failed_origin {V : Type _} (tg : TaskGraph V)
    (layer : List String) (rs : List (String × V)) (f : String)
    (h : lookupAL (executeLayer tg layer rs).1.statuses f = some TaskStatus.failed) :
    lookupAL tg.statuses f = some TaskStatus.failed ∨
      (f ∈ layer ∧ ((executeLayer tg layer rs).2.2).isSome) := by
  rcases execTasks_failed_origin rs layer tg [] none f h with h1 | ⟨hmem, hsome⟩
  · exact Or.inl h1
  · refine Or.inr ⟨hmem, ?_⟩
    cases hx : (execTasks rs tg layer [] none).2.2 with
    | none =>
      rw [hx] at hsome
      simp at hsome
    | some e0 =>
      have h22 : (executeLayer tg layer rs).2.2 = some e0 := by
        unfold executeLayer
        rw [hx]
      rw [h22]
      rfl

theorem executeLayer_err_wrap {V : Type _} (tg : TaskGraph V)
    (layer : List String) (rs : List (String × V)) (e : String)
    (hnd : layer.Nodup) (h : (executeLayer tg layer rs).2.2 = some e) :
    ∃ g ∈ layer, (∃ msg, e = "task " ++ g ++ " failed: " ++ msg) ∧
      lookupAL (executeLayer tg layer rs).1.statuses g = some TaskStatus.failed := by
  obtain ⟨-, hx⟩ := executeLayer_err_some tg layer rs e h
  rcases execTasks_err_form rs layer hnd tg [] none e hx with h1 | ⟨g, hg, hform, hstat⟩
  · simp at h1
  · exact ⟨g, hg, hform, hstat⟩

theorem execLayers_frame {V : Type _} :
    ∀ (ls : List (List String)) (tg : TaskGraph V) (rsv : List (String × V)),
      (execLayers tg ls rsv).1.store = tg.store ∧
      (execLayers tg ls rsv).1.taskLayers = tg.taskLayers ∧
      (execLayers tg ls rsv).1.opts = tg.opts := by
  intro ls
  induction ls with
  | nil => intro tg rsv; exact ⟨rfl, rfl, rfl⟩
  | cons layer rest ih =>
    intro tg rsv
    obtain ⟨g1, g2, g3⟩ := execTasks_frame rsv layer tg [] none
    cases hx : (executeLayer tg layer rsv).2.2 with
    | some e =>
      simp only [execLayers, hx]
      exact ⟨g1, g2, g3⟩
    | none =>
      simp only [execLayers, hx]
      obtain ⟨h1, h2, h3⟩ := ih (executeLayer tg layer rsv).1 _
      exact ⟨h1.trans g1, h2.trans g2, h3.trans g3⟩

theorem execLayers_ok_no_new_failed {V : Type _} :
    ∀ (ls : List (List String)) (tg : TaskGraph V) (rsv : List (String × V)),
      (execLayers tg ls rsv).2.2 = none →
      ∀ f, lookupAL (execLayers tg ls rsv).1.statuses f = some TaskStatus.failed →
        lookupAL tg.statuses f = some TaskStatus.failed := by
  intro ls
  induction ls with
  | nil => intro tg rsv _ f hf; exact hf
  | cons layer rest ih =>
    intro tg rsv hok f hf
    cases hx : (executeLayer tg layer rsv).2.2 with
    | some e =>
      rw [show execLayers tg (layer :: rest) rsv =
        ((executeLayer tg layer rsv).1, none, some e) by
          simp only [execLayers, hx]] at hok
      simp at hok
    | none =>
      rw [show execLayers tg (layer :: rest) rsv =
        execLayers (executeLayer tg layer rsv).1 rest
          (mergeResults rsv (((executeLayer tg layer rsv).2.1).getD [])) by
          simp only [execLayers, hx]] at hok hf
      have h1 := ih _ _ hok f hf
      rcases executeLayer_failed_origin tg layer rsv f h1 with h2 | ⟨-, hsome⟩
      · exact h2
      · rw [hx] at hsome
        simp at hsome

theorem execLayers_err_anatomy {V : Type _} :
    ∀ (ls : List (List String)) (tg : TaskGraph V) (rsv : List (String × V)),
      (∀ l ∈ ls, l.Nodup) →
      ∀ e, (execLayers tg ls rsv).2.2 = some e →
      (execLayers tg ls rsv).2.1 = none ∧
      ∃ i, i < ls.length ∧
        (∃ g ∈ ls.getD i [], (∃ msg, e = "task " ++ g ++ " failed: " ++ msg) ∧
          lookupAL (execLayers tg ls rsv).1.statuses g = some TaskStatus.failed) ∧
        (∀ id, (∀ j, j ≤ i → id ∉ ls.getD j []) →
          lookupAL (execLayers tg ls rsv).1.statuses id = lookupAL tg.statuses id) ∧
        (∀ f, lookupAL (execLayers tg ls rsv).1.statuses f = some TaskStatus.failed →
          lookupAL tg.statuses f = some TaskStatus.failed ∨ f ∈ ls.getD i []) := by
  intro ls
  induction ls with
  | nil => intro tg rsv _ e h; simp [execLayers] at h
  | cons layer rest ih =>
    intro tg rsv hnd e h
    have hndl : layer.Nodup := hnd layer (List.mem_cons_self _ _)
    have hndr : ∀ l ∈ rest, l.Nodup := fun l hl => hnd l (List.mem_cons_of_mem _ hl)
    cases hx : (executeLayer tg layer rsv).2.2 with
    | some e0 =>
      have hdef : execLayers tg (layer :: rest) rsv =
          ((executeLayer tg layer rsv).1, none, some e0) := by
        simp only [execLayers, hx]
      rw [hdef] at h ⊢
      have he : e0 = e := Option.some.inj h
      subst he
      refine ⟨rfl, 0, Nat.succ_pos _, ?_, ?_, ?_⟩
      · obtain ⟨g, hg, hform, hstat⟩ := executeLayer_err_wrap tg layer rsv e0 hndl hx
        exact ⟨g, by simpa [List.getD_cons_zero] using hg, hform, hstat⟩
      · intro id hid
        have h0 : id ∉ layer := by
          have := hid 0 (Nat.le_refl _)
          simpa [List.getD_cons_zero] using this
        exact executeLayer_statuses_ne tg layer rsv id h0
      · intro f hf
        rcases executeLayer_failed_origin tg layer rsv f hf with h1 | ⟨hmem, -⟩
        · exact Or.inl h1
        · exact Or.inr (by simpa [List.getD_cons_zero] using hmem)
    | none =>
      have hdef : execLayers tg (layer :: rest) rsv =
          execLayers (executeLayer tg layer rsv).1 rest
            (mergeResults rsv (((executeLayer tg layer rsv).2.1).getD [])) := by
        simp only [execLayers, hx]
      rw [hdef] at h ⊢
      obtain ⟨hres, i, hlen, ⟨g, hg, hform, hstat⟩, hunch, horig⟩ :=
        ih _ _ hndr e h
      refine ⟨hres, i + 1, Nat.succ_lt_succ hlen, ?_, ?_, ?_⟩
      · exact ⟨g, by simpa [List.getD_cons_succ] using hg, hform, hstat⟩
      · intro id hid
        have h0 : id ∉ layer := by
          have := hid 0 (Nat.zero_le _)
          simpa [List.getD_cons_zero] using this
        have hrest' : ∀ j, j ≤ i → id ∉ rest.getD j [] := by
          intro j hj
          have := hid (j + 1) (Nat.succ_le_succ hj)
          simpa [List.getD_cons_succ] using this
        rw [hunch id hrest']
        exact executeLayer_statuses_ne tg layer rsv id h0
      · intro f hf
        rcases horig f hf with h1 | h1
        · rcases executeLayer_failed_origin tg layer rsv f h1 with h2 | ⟨-, hsome⟩
          · exact Or.inl h2
          · rw [hx] at hsome
            simp at hsome
        · exact Or.inr (by simpa [List.getD_cons_succ] using h1)

/-! ### Layer grouping lemmas -/

theorem layersOf_getD (tls : List (String × Int)) (j : Nat) :
    (layersOf tls).getD j [] =
      if j < (maxLayerOf tls).toNat + 1
      then (tls.filter (fun p => p.2 == (j : Int))).map Prod.fst
      else [] := by
  unfold layersOf
  rw [List.getD_eq_getElem?_getD, List.getElem?_map]
  by_cases hj : j < (maxLayerOf tls).toNat + 1
  · rw [List.getElem?_range hj]
    simp [hj]
  · rw [List.getElem?_eq_none
      (by simpa [List.length_range] using Nat.le_of_not_lt hj)]
    simp [hj]

theorem mem_layersOf {tls : List (String × Int)}
    (hnd : (tls.map Prod.fst).Nodup) (id : String) (j : Nat) :
    id ∈ (layersOf tls).getD j [] ↔
      j < (maxLayerOf tls).toNat + 1 ∧ lookupAL tls id = some (j : Int) := by
  rw [layersOf_getD]
  by_cases hj : j < (maxLayerOf tls).toNat + 1
  · rw [if_pos hj]
    constructor
    · intro hmem
      obtain ⟨p, hp, hpfst⟩ := List.mem_map.mp hmem
      obtain ⟨hptls, hpj⟩ := List.mem_filter.mp hp
      have hp2 : p.2 = (j : Int) := by simpa using hpj
      have hpeq : p = (id, (j : Int)) := by
        rw [← hpfst, ← hp2]
      exact ⟨hj, lookupAL_of_mem_nodup _ _ _ hnd (hpeq ▸ hptls)⟩
    · rintro ⟨-, hlk⟩
      exact List.mem_map.mpr ⟨(id, (j : Int)),
        List.mem_filter.mpr ⟨lookupAL_mem _ _ _ hlk, by simp⟩, rfl⟩
  · rw [if_neg hj]
    simp [hj]

theorem layersOf_nodup {tls : List (String × Int)}
    (hnd : (tls.map Prod.fst).Nodup) :
    ∀ l ∈ layersOf tls, l.Nodup := by
  intro l hl
  obtain ⟨i, -, hli⟩ := List.mem_map.mp hl
  rw [← hli]
  exact ((List.filter_sublist tls).map Prod.fst).nodup hnd

/-- Every entry lookup stays within the grouped range. -/
theorem lookup_layer_mem_group {tls : List (String × Int)}
    (hnd : (tls.map Prod.fst).Nodup) (id : String) (l : Int)
    (h : lookupAL tls id = some l) (hnn : 0 ≤ l) :
    id ∈ (layersOf tls).getD l.toNat [] := by
  have hb : l ≤ maxLayerOf tls := maxLayerOf_bound tls (id, l) (lookupAL_mem _ _ _ h)
  have h0 : 0 ≤ maxLayerOf tls := maxLayerOf_nonneg tls
  rw [mem_layersOf hnd]
  constructor
  · omega
  · rw [h]
    congr 1
    omega

/-- A map whose values all avoid `v` never looks up to `some v`. -/
theorem lookupAL_ne_of_all {α : Type _} (m : List (String × α)) (v : α)
    (hm : ∀ p ∈ m, p.2 ≠ v) : ∀ k, lookupAL m k ≠ some v := by
  induction m with
  | nil => intro k h; simp [lookupAL] at h
  | cons p rest ih =>
    intro k h
    by_cases hq : p.1 = k
    · simp [lookupAL, hq] at h
      exact hm p (List.mem_cons_self _ _) h
    · simp [lookupAL, hq] at h
      exact ih (fun q hqm => hm q (List.mem_cons_of_mem _ hqm)) k h

/-- C2: Fail-fast on task failure.  In a run of `Execute` starting from
statuses that contain no Failed entry, if some task `f` ends with status
Failed (the model's observable for "its work function was invoked and
returned an error"), then `Execute` returned no results map (`nil`),
returned an error wrapping a failing task's identifier, and every task in
a layer strictly later than `f`'s kept its previous status — in particular
it was never executed and never reached status Running. -/
theorem execute_fail_fast {V : Type _} {tg tg' : TaskGraph V}
    {options : List ExecuteOption} {res : Option (List (String × V))}
    {err : Option String} {f : String}
    (hnd : (tg.taskLayers.map Prod.fst).Nodup)
    (h : Execute tg options = (tg', res, err))
    (hinit : ∀ id, lookupAL tg.statuses id ≠ some TaskStatus.failed)
    (hf : lookupAL tg'.statuses f = some TaskStatus.failed) :
    res = none ∧
    (∃ g msg, err = some ("task " ++ g ++ " failed: " ++ msg) ∧
      lookupAL tg'.statuses g = some TaskStatus.failed) ∧
    ∃ lf : Int, lookupAL tg.taskLayers f = some lf ∧
      ∀ u lu, lookupAL tg.taskLayers u = some lu → lf < lu →
        lookupAL tg'.statuses u = lookupAL tg.statuses u := by
  have h' : execLayers { tg with opts := options.foldl (fun o f => f o) tg.opts }
      (layersOf tg.taskLayers) [] = (tg', res, err) := h
  set tg1 : TaskGraph V := { tg with opts := options.foldl (fun o f => f o) tg.opts }
    with htg1
  have hst : tg1.statuses = tg.statuses := rfl
  have hgnd : ∀ l ∈ layersOf tg.taskLayers, l.Nodup := layersOf_nodup hnd
  have h1 : (execLayers tg1 (layersOf tg.taskLayers) []).1 = tg' := by rw [h']
  have h2 : (execLayers tg1 (layersOf tg.taskLayers) []).2.1 = res := by rw [h']
  have h3 : (execLayers tg1 (layersOf tg.taskLayers) []).2.2 = err := by rw [h']
  cases err with
  | none =>
    exfalso
    have := execLayers_ok_no_new_failed (layersOf tg.taskLayers) tg1 [] h3 f
      (by rw [h1]; exact hf)
    rw [hst] at this
    exact hinit f this
  | some e =>
    obtain ⟨hres, i, hlen, ⟨g, hg, ⟨msg, hmsg⟩, hgfail⟩, hunch, horig⟩ :=
      execLayers_err_anatomy (layersOf tg.taskLayers) tg1 [] hgnd e h3
    refine ⟨by rw [← h2, hres], ?_, ?_⟩
    · exact ⟨g, msg, by rw [hmsg], by rw [← h1]; exact hgfail⟩
    · have hfgroup : f ∈ (layersOf tg.taskLayers).getD i [] := by
        rcases horig f (by rw [h1]; exact hf) with h4 | h4
        · rw [hst] at h4
          exact absurd h4 (hinit f)
        · exact h4
      have hflayer := (mem_layersOf hnd f i).mp hfgroup
      refine ⟨(i : Int), hflayer.2, ?_⟩
      intro u lu hu hlu
      have hunn : 0 ≤ lu := by
        have : (0 : Int) ≤ (i : Int) := Int.natCast_nonneg i
        omega
      have humem : u ∈ (layersOf tg.taskLayers).getD lu.toNat [] :=
        lookup_layer_mem_group hnd u lu hu hunn
      rw [← h1, ← hst]
      apply hunch u
      intro j hj hmem
      have := (mem_layersOf hnd u j).mp hmem
      rw [hu] at this
      have hj' : (j : Int) = lu := Option.some.inj this.2.symm
      omega

/-- C2 witness: the failing chain A → B (fails) → C.  The run returns no
results map, and task C (layer 2, strictly later than B's layer 1) keeps
its prior status. -/
theorem execute_fail_fast_witness :
    (Execute failChain []).2.1 = none ∧
    lookupAL (Execute failChain []).1.statuses "C" =
      lookupAL failChain.statuses "C" := by
  have h := @execute_fail_fast Nat failChain (Execute failChain []).1 []
    (Execute failChain []).2.1 (Execute failChain []).2.2 "B"
    (by decide) rfl
    (lookupAL_ne_of_all failChain.statuses TaskStatus.failed (by decide))
    (by rfl)
  obtain ⟨h1, -, lf, hlf, hall⟩ := h
  refine ⟨h1, ?_⟩
  have hlf1 : lf = 1 := by
    have hB : lookupAL failChain.taskLayers "B" = some 1 := rfl
    rw [hB] at hlf
    exact (Option.some.inj hlf).symm
  exact hall "C" 2 rfl (by rw [hlf1]; norm_num)

/-! ### Guard-skip semantics -/


theorem find?_setWork_aux {V : Type _} (tid k : String)
    (w : List (String × V) → Except String V) :
    ∀ (l : List (Task V)),
      (l.map (fun u => if u.id == tid then { u with work := w } else u)).find?
        (fun u => u.id == k) =
      (l.find? (fun u => u.id == k)).map
        (fun u => if u.id == tid then { u with work := w } else u) := by
  intro l
  induction l with
  | nil => rfl
  | cons u rest ih =>
    have hid : (if u.id == tid then { u with work := w } else u).id = u.id := by
      by_cases h2 : u.id == tid <;> simp [h2]
    by_cases hu : u.id == k
    · have e1 : List.find? (fun x : Task V => x.id == k)
          ((if u.id == tid then { u with work := w } else u) ::
            rest.map (fun x => if x.id == tid then { x with work := w } else x)) =
          some (if u.id == tid then { u with work := w } else u) :=
        List.find?_cons_of_pos _ (by rw [hid]; exact hu)
      have e2 : List.find? (fun x : Task V => x.id == k) (u :: rest) = some u :=
        List.find?_cons_of_pos _ hu
      rw [List.map_cons, e1, e2]
      rfl
    · have e1 : List.find? (fun x : Task V => x.id == k)
          ((if u.id == tid then { u with work := w } else u) ::
            rest.map (fun x => if x.id == tid then { x with work := w } else x)) =
          List.find? (fun x : Task V => x.id == k)
            (rest.map (fun x => if x.id == tid then { x with work := w } else x)) :=
        List.find?_cons_of_neg _ (by rw [hid]; exact hu)
      have e2 : List.find? (fun x : Task V => x.id == k) (u :: rest) =
          List.find? (fun x : Task V => x.id == k) rest :=
        List.find?_cons_of_neg _ hu
      rw [List.map_cons, e1, e2, ih]

theorem vertexLookup_setWork {V : Type _} (tg : TaskGraph V) (tid : String)
    (w : List (String × V) → Except String V) (k : String) :
    vertexLookup (setWork tg tid w).store k =
      (vertexLookup tg.store k).map
        (fun u => if u.id == tid then { u with work := w } else u) := by
  have := find?_setWork_aux tid k w tg.store.vertices
  simpa [vertexLookup, setWork] using this

theorem vertexLookup_setWork_ne {V : Type _} (tg : TaskGraph V) (tid : String)
    (w : List (String × V) → Except String V) (k : String) (hk : k ≠ tid) :
    vertexLookup (setWork tg tid w).store k = vertexLookup tg.store k := by
  rw [vertexLookup_setWork]
  cases hv : vertexLookup tg.store k with
  | none => rfl
  | some u =>
    have huk : u.id = k := by simpa using List.find?_some hv
    simp [huk, hk]

theorem runTask_skip {V : Type _} (tgX : TaskGraph V) (rs : List (String × V))
    (tid : String) (t : Task V) (c : List (String × V) → Bool)
    (hv : vertexLookup tgX.store tid = some t) (hcnd : t.condition = some c)
    (hg : c (collectInputs t.depends rs) = false) :
    runTask tgX rs tid = (setStatus tgX tid TaskStatus.skipped, none, none) := by
  have hcb : conditionBlocks t (collectInputs t.depends rs) = true := by
    simp [conditionBlocks, hcnd, hg]
  simp [runTask, hv, hcb]

theorem runTask_setWork {V : Type _} (rs : List (String × V)) (tid : String)
    (t : Task V) (c : List (String × V) → Bool)
    (w : List (String × V) → Except String V) (hcnd : t.condition = some c)
    (hg : c (collectInputs t.depends rs) = false) :
    ∀ (tgX : TaskGraph V) (k : String), vertexLookup tgX.store tid = some t →
      runTask (setWork tgX tid w) rs k =
        (setWork (runTask tgX rs k).1 tid w, (runTask tgX rs k).2) := by
  intro tgX k hvX
  by_cases hk : k = tid
  · subst hk
    have htk : t.id = k := by simpa using List.find?_some hvX
    have hvW : vertexLookup (setWork tgX k w).store k = some { t with work := w } := by
      rw [vertexLookup_setWork, hvX]
      simp [htk]
    have hskip := runTask_skip tgX rs k t c hvX hcnd hg
    have hskipW : runTask (setWork tgX k w) rs k =
        (setStatus (setWork tgX k w) k TaskStatus.skipped, none, none) :=
      runTask_skip (setWork tgX k w) rs k { t with work := w } c hvW hcnd hg
    rw [hskip, hskipW]
    rfl
  · have hvW := vertexLookup_setWork_ne tgX tid w k hk
    cases hv : vertexLookup tgX.store k with
    | none =>
      have hvW' : vertexLookup (setWork tgX tid w).store k = none := hvW.trans hv
      simp [runTask, hv, hvW']
    | some u =>
      have hvW' : vertexLookup (setWork tgX tid w).store k = some u := hvW.trans hv
      by_cases hc : conditionBlocks u (collectInputs u.depends rs)
      · simp only [runTask, hv, hvW', if_pos hc]
        rfl
      · cases hw' : u.work (collectInputs u.depends rs) with
        | error e =>
          simp only [runTask, hv, hvW', if_neg hc, hw']
          rfl
        | ok v =>
          simp only [runTask, hv, hvW', if_neg hc, hw']
          rfl


theorem execTasks_append {V : Type _} (rs : List (String × V)) :
    ∀ (l1 l2 : List String) (tg : TaskGraph V) (lres : List (String × V))
      (ferr : Option String),
      execTasks rs tg (l1 ++ l2) lres ferr =
        execTasks rs (execTasks rs tg l1 lres ferr).1 l2
          (execTasks rs tg l1 lres ferr).2.1 (execTasks rs tg l1 lres ferr).2.2 := by
  intro l1
  induction l1 with
  | nil => intro l2 tg lres ferr; rfl
  | cons id rest ih =>
    intro l2 tg lres ferr
    rw [List.cons_append]
    simp only [execTasks]
    exact ih l2 _ _ _

theorem execTasks_setWork {V : Type _} (rs : List (String × V)) (tid : String)
    (t : Task V) (c : List (String × V) → Bool)
    (w : List (String × V) → Except String V) (hcnd : t.condition = some c)
    (hg : c (collectInputs t.depends rs) = false) :
    ∀ (ids : List String) (tgX : TaskGraph V) (lres : List (String × V))
      (ferr : Option String), vertexLookup tgX.store tid = some t →
      execTasks rs (setWork tgX tid w) ids lres ferr =
        (setWork (execTasks rs tgX ids lres ferr).1 tid w,
          (execTasks rs tgX ids lres ferr).2) := by
  intro ids
  induction ids with
  | nil => intro tgX lres ferr _; rfl
  | cons k rest ih =>
    intro tgX lres ferr hvX
    have hrt := runTask_setWork rs tid t c w hcnd hg tgX k hvX
    have hv' : vertexLookup (runTask tgX rs k).1.store tid = some t := by
      rw [(runTask_frame tgX rs k).1]
      exact hvX
    simp only [execTasks, hrt]
    exact ih _ _ _ hv'

/-- C3: Guard skip semantics.  For a task with a guard condition that
evaluates to false on its input snapshot at execution time: its status
ends Skipped, it contributes no entry to the layer's result map, and the
whole layer outcome — statuses, result map and error — is independent of
the task's work function (it is never invoked). -/
theorem guard_skip {V : Type _} {tg : TaskGraph V} {tid : String} {t : Task V}
    {c : List (String × V) → Bool} {layer : List String}
    {results : List (String × V)}
    (hv : vertexLookup tg.store tid = some t) (hc : t.condition = some c)
    (hg : c (collectInputs t.depends results) = false)
    (hmem : tid ∈ layer) (hnd : layer.Nodup) :
    lookupAL (executeLayer tg layer results).1.statuses tid =
      some TaskStatus.skipped ∧
    (∀ lres, (executeLayer tg layer results).2.1 = some lres →
      lookupAL lres tid = none) ∧
    (∀ w, (executeLayer (setWork tg tid w) layer results).1.statuses =
        (executeLayer tg layer results).1.statuses ∧
      (executeLayer (setWork tg tid w) layer results).2 =
        (executeLayer tg layer results).2) := by
  obtain ⟨l1, l2, hsplit⟩ := List.append_of_mem hmem
  have hndsplit := hsplit ▸ hnd
  obtain ⟨hnd1, hnd2, hdisj⟩ := List.nodup_append.mp hndsplit
  have htid1 : tid ∉ l1 := fun hq => hdisj hq (List.mem_cons_self _ _)
  have htid2 : tid ∉ l2 := (List.nodup_cons.mp hnd2).1
  have hA : (execTasks results tg l1 [] none).1.store = tg.store :=
    (execTasks_frame results l1 tg [] none).1
  have hvA : vertexLookup (execTasks results tg l1 [] none).1.store tid = some t := by
    rw [hA]; exact hv
  have hskip := runTask_skip _ results tid t c hvA hc hg
  have hdec' : execTasks results tg layer [] none =
      execTasks results
        (setStatus (execTasks results tg l1 [] none).1 tid TaskStatus.skipped) l2
        (execTasks results tg l1 [] none).2.1
        (execTasks results tg l1 [] none).2.2 := by
    rw [hsplit, execTasks_append]
    simp only [execTasks, hskip]
    cases (execTasks results tg l1 [] none).2.2 <;> rfl
  refine ⟨?_, ?_, ?_⟩
  · rw [executeLayer_fst, hdec',
      execTasks_statuses_ne results l2 _ _ _ tid htid2]
    exact lookupAL_insertAL_self _ _ _
  · intro lres hlres
    have hlres' : lres = (execTasks results tg layer [] none).2.1 := by
      unfold executeLayer at hlres
      cases hx : (execTasks results tg layer [] none).2.2 with
      | some e0 => rw [hx] at hlres; simp at hlres
      | none =>
        rw [hx] at hlres
        simp only at hlres
        exact (Option.some.inj hlres).symm
    rw [hlres', hdec', execTasks_lres_ne results l2 _ _ _ tid htid2,
      execTasks_lres_ne results l1 tg [] none tid htid1]
    rfl
  · intro w
    have hsw := execTasks_setWork results tid t c w hc hg layer tg [] none hv
    constructor
    · show (executeLayer (setWork tg tid w) layer results).1.statuses =
        (executeLayer tg layer results).1.statuses
      rw [executeLayer_fst, executeLayer_fst, hsw]
      rfl
    · show (executeLayer (setWork tg tid w) layer results).2 =
        (executeLayer tg layer results).2
      unfold executeLayer
      rw [hsw]

/-- C3 witness: task B of the guard graph (guard always false) ends
Skipped and contributes no entry to the layer result map. -/
theorem guard_skip_witness :
    lookupAL (executeLayer guardGraph ["B"] [("A", 1)]).1.statuses "B" =
      some TaskStatus.skipped ∧
    ∀ lres, (executeLayer guardGraph ["B"] [("A", 1)]).2.1 = some lres →
      lookupAL lres "B" = none := by
  have h := @guard_skip Nat guardGraph "B" taskBguard
    (fun _ => false) ["B"] [("A", 1)]
    rfl rfl rfl (List.mem_singleton_self _) (List.nodup_singleton _)
  exact ⟨h.1, h.2.1⟩

/-! ### Input snapshot -/

/-- C8: Input snapshot tolerance.  The input snapshot handed to a task's
work function and guard (`runTask` passes `collectInputs t.depends results`
to both) contains exactly the entries of the cumulative results map keyed
by the declared dependencies; dependencies without a results entry are
silently omitted and cause no error. -/
theorem collectInputs_spec {V : Type _} (deps : List String)
    (results : List (String × V)) (k : String) :
    lookupAL (collectInputs deps results) k =
      if k ∈ deps then lookupAL results k else none := by
  have gen : ∀ (ds : List String) (acc : List (String × V)),
      lookupAL (ds.foldl (fun acc dep =>
        match lookupAL results dep with
        | some r => insertAL acc dep r
        | none => acc) acc) k =
      if k ∈ ds ∧ (lookupAL results k).isSome
      then lookupAL results k else lookupAL acc k := by
    intro ds
    induction ds with
    | nil => intro acc; simp
    | cons d rest ih =>
      intro acc
      rw [List.foldl_cons, ih]
      by_cases hkd : k = d
      · subst hkd
        cases hr : lookupAL results k with
        | some r =>
          by_cases hmem : k ∈ rest
          · simp [hmem, hr]
          · simp [hmem, hr, lookupAL_insertAL_self]
        | none =>
          simp [hr]
      · cases hr : lookupAL results d with
        | some r =>
          by_cases hmem : k ∈ rest
          · simp [hmem, hkd, hr, lookupAL_insertAL_ne _ _ _ _ hkd]
          · simp [hmem, hkd, hr, lookupAL_insertAL_ne _ _ _ _ hkd]
        | none =>
          by_cases hmem : k ∈ rest
          · simp [hmem, hkd, hr]
          · simp [hmem, hkd, hr]
  have hg := gen deps []
  show lookupAL (deps.foldl (fun acc dep =>
    match lookupAL results dep with
    | some r => insertAL acc dep r
    | none => acc) []) k = if k ∈ deps then lookupAL results k else none
  rw [hg]
  by_cases hmem : k ∈ deps
  · cases hr : lookupAL results k with
    | some r => simp [hmem, hr]
    | none => simp [hmem, hr, lookupAL]
  · simp [hmem, lookupAL]

/-! ### Diamond scenario -/

/-- C7: Diamond scenario.  For A; B, C (dep A); D (dep B, C): the computed
layers are [[A], [B, C], [D]]; the returned execution order is a valid
topological order; every valid topological order places A before B and C
and both before D; and a successful run returns a results map with exactly
4 entries. -/
theorem diamond_scenario :
    layersOf diamond.taskLayers = [["A"], ["B", "C"], ["D"]] ∧
    GetExecutionOrder diamond = Except.ok ["A", "B", "C", "D"] ∧
    isTopoOrder diamond.store ["A", "B", "C", "D"] = true ∧
    (∀ l, isTopoOrder diamond.store l = true →
      (precedes l "A" "B" = true ∧ precedes l "A" "C" = true ∧
       precedes l "B" "D" = true ∧ precedes l "C" "D" = true)) ∧
    (Execute diamond []).2 =
      (some [("A", 1), ("B", 2), ("C", 3), ("D", 4)], none) ∧
    [("A", 1), ("B", 2), ("C", 3), ("D", 4)].length = 4 := by
  refine ⟨rfl, rfl, rfl, ?_, rfl, rfl⟩
  intro l hl
  have hre : respectsEdges diamond.store.edges l = true :=
    (Bool.and_eq_true_iff.mp (by simpa [isTopoOrder] using hl)).2
  have hedges : diamond.store.edges =
      [("A", "B"), ("A", "C"), ("B", "D"), ("C", "D")] := rfl
  rw [hedges] at hre
  have hall := List.all_eq_true.mp hre
  exact ⟨hall ("A", "B") (by simp), hall ("A", "C") (by simp),
    hall ("B", "D") (by simp), hall ("C", "D") (by simp)⟩

/-- C7 witness: the order the model returns is a topological order and is
constrained as the claim states. -/
theorem diamond_scenario_witness :
    precedes ["A", "B", "C", "D"] "A" "B" = true ∧
    precedes ["A", "B", "C", "D"] "A" "C" = true ∧
    precedes ["A", "B", "C", "D"] "B" "D" = true ∧
    precedes ["A", "B", "C", "D"] "C" "D" = true :=
  diamond_scenario.2.2.2.1 ["A", "B", "C", "D"] rfl

/-! ### Equivalence of the two Execute implementations -/

theorem runTask_opts {V : Type _} (tg : TaskGraph V) (o : ExecuteOptions)
    (rs : List (String × V)) (id : String) :
    runTask { tg with opts := o } rs id =
      ({ (runTask tg rs id).1 with opts := o }, (runTask tg rs id).2) := by
  cases hv : vertexLookup tg.store id with
  | none => simp [runTask, hv]
  | some task =>
    by_cases hc : conditionBlocks task (collectInputs task.depends rs)
    · simp only [runTask, hv, if_pos hc]
      rfl
    · cases hw : task.work (collectInputs task.depends rs) with
      | error e =>
        simp only [runTask, hv, if_neg hc, hw]
        rfl
      | ok v =>
        simp only [runTask, hv, if_neg hc, hw]
        rfl

theorem execTasks_opts {V : Type _} (rs : List (String × V)) (o : ExecuteOptions) :
    ∀ (ids : List String) (tg : TaskGraph V) (lres : List (String × V))
      (ferr : Option String),
      execTasks rs { tg with opts := o } ids lres ferr =
        ({ (execTasks rs tg ids lres ferr).1 with opts := o },
          (execTasks rs tg ids lres ferr).2) := by
  intro ids
  induction ids with
  | nil => intro tg lres ferr; rfl
  | cons id rest ih =>
    intro tg lres ferr
    simp only [execTasks, runTask_opts]
    exact ih _ _ _

theorem executeLayer_opts {V : Type _} (tg : TaskGraph V) (o : ExecuteOptions)
    (layer : List String) (rs : List (String × V)) :
    executeLayer { tg with opts := o } layer rs =
      ({ (executeLayer tg layer rs).1 with opts := o },
        (executeLayer tg layer rs).2) := by
  unfold executeLayer
  rw [execTasks_opts]

theorem execLayers_opts {V : Type _} (o : ExecuteOptions) :
    ∀ (ls : List (List String)) (tg : TaskGraph V) (rsv : List (String × V)),
      execLayers { tg with opts := o } ls rsv =
        ({ (execLayers tg ls rsv).1 with opts := o }, (execLayers tg ls rsv).2) := by
  intro ls
  induction ls with
  | nil => intro tg rsv; rfl
  | cons layer rest ih =>
    intro tg rsv
    cases hx : (executeLayer tg layer rsv).2.2 with
    | some e =>
      have hxo : (executeLayer { tg with opts := o } layer rsv).2.2 = some e := by
        rw [executeLayer_opts]
        exact hx
      simp only [execLayers, hx, hxo, executeLayer_opts]
    | none =>
      have hxo : (executeLayer { tg with opts := o } layer rsv).2.2 = none := by
        rw [executeLayer_opts]
        exact hx
      simp only [execLayers, hx, hxo, executeLayer_opts]
      exact ih _ _

/-- C9: The two `Execute` implementations are equivalent.  On every graph
built by the same successful `AddTask` calls, with the same (deterministic)
work functions and guards, the struct-options `Execute` of
`src/graph/task.go` and the functional-options `Execute` of
`src/unnamed/part_000` return the same results map and the same error
under the sequential semantics of layer execution, for every choice of
options on either side. -/
theorem execute_implementations_equiv {V : Type _} {tg : TaskGraph V}
    (hb : Built tg) (opts : ExecuteOptionsS) (options : List ExecuteOption) :
    (ExecuteS tg opts).2 = (Execute tg options).2 := by
  have hL : ExecuteS tg opts = execLayers tg (layersOf tg.taskLayers) [] := by
    unfold ExecuteS
    rw [built_topoSort hb]
  have hR : Execute tg options =
      execLayers { tg with opts := options.foldl (fun o f => f o) tg.opts }
        (layersOf tg.taskLayers) [] := rfl
  have ho := execLayers_opts (V := V) (options.foldl (fun o f => f o) tg.opts)
    (layersOf tg.taskLayers) tg []
  rw [hL, hR, ho]

/-- C9 witness: both implementations on the diamond graph. -/
theorem execute_implementations_equiv_witness :
    (ExecuteS diamond { workerCount := 0 }).2 =
      (Execute diamond [WithWorkerCount 3]).2 :=
  execute_implementations_equiv built_diamond { workerCount := 0 }
    [WithWorkerCount 3]

/-! ### Option persistence -/

/-- C10: Option persistence.  `Execute` of the functional-options
implementation applies every supplied option to the stored options and
never resets them: after a call the stored options are exactly the fold of
the supplied options over the previous stored options; a second call with
no options is governed by the options stored by the first call; and
`WithWorkerCount` with a non-positive count leaves the options unchanged. -/
theorem execute_option_persistence (V : Type _) :
    (∀ (tg : TaskGraph V) (options : List ExecuteOption),
      (Execute tg options).1.opts = options.foldl (fun o f => f o) tg.opts) ∧
    (∀ (tg tg1 : TaskGraph V) (options : List ExecuteOption)
      (r : Option (List (String × V))) (e : Option String),
      Execute tg options = (tg1, r, e) →
      (Execute tg1 []).1.opts = options.foldl (fun o f => f o) tg.opts) ∧
    (∀ (c : Int) (o : ExecuteOptions), c ≤ 0 → WithWorkerCount c o = o) := by
  have h1 : ∀ (tg : TaskGraph V) (options : List ExecuteOption),
      (Execute tg options).1.opts = options.foldl (fun o f => f o) tg.opts := by
    intro tg options
    have hR : Execute tg options =
        execLayers { tg with opts := options.foldl (fun o f => f o) tg.opts }
          (layersOf tg.taskLayers) [] := rfl
    rw [hR]
    exact (execLayers_frame (layersOf tg.taskLayers)
      { tg with opts := options.foldl (fun o f => f o) tg.opts } []).2.2
  refine ⟨h1, ?_, ?_⟩
  · intro tg tg1 options r e h
    have h2 := h1 tg1 []
    rw [List.foldl_nil] at h2
    rw [h2, show tg1 = (Execute tg options).1 by rw [h]]
    exact h1 tg options
  · intro c o hc
    unfold WithWorkerCount
    rw [if_neg (by omega)]

/-- C10 witness: a worker count passed to the first call still governs the
second call that omits it; a non-positive count is ignored. -/
theorem execute_option_persistence_witness :
    (Execute (Execute diamond [WithWorkerCount 3]).1 []).1.opts =
      [WithWorkerCount 3].foldl (fun o f => f o) diamond.opts ∧
    WithWorkerCount (-1) { workerCount := 5, enableDebugLog := false } =
      { workerCount := 5, enableDebugLog := false } := by
  refine ⟨?_, ?_⟩
  · exact (execute_option_persistence Nat).2.1 diamond
      (Execute diamond [WithWorkerCount 3]).1 [WithWorkerCount 3]
      (Execute diamond [WithWorkerCount 3]).2.1
      (Execute diamond [WithWorkerCount 3]).2.2 rfl
  · exact (execute_option_persistence Nat).2.2 (-1) _ (by norm_num)

/-! ### Concurrency bound -/

/-- With a `SetLimit k` errgroup (the functional-options implementation),
every admissible schedule keeps the number of simultaneously running work
functions at or below `k` at every instant. -/
theorem validTrace_bounded (k : Nat) :
    ∀ (tr : List LEvent) (running started : List Nat),
      validTrace (some k) running started tr = true → running.length ≤ k →
      (runningAfter running tr).length ≤ k := by
  intro tr
  induction tr with
  | nil => intro running started _ hlen; exact hlen
  | cons ev rest ih =>
    intro running started h hlen
    cases ev with
    | start i =>
      simp only [validTrace] at h
      obtain ⟨hab, h3⟩ := Bool.and_eq_true_iff.mp h
      obtain ⟨h1, h2⟩ := Bool.and_eq_true_iff.mp hab
      have hlt : running.length < k := by simpa using h2
      simp only [runningAfter]
      exact ih (i :: running) (i :: started) h3 (by simpa using hlt)
    | finish i =>
      simp only [validTrace] at h
      obtain ⟨h1, h2⟩ := Bool.and_eq_true_iff.mp h
      simp only [runningAfter]
      exact ih (running.erase i) started h2
        (le_trans (List.erase_sublist i running).length_le hlen)

/-- C4: the struct-options implementation never applies the worker limit.
`src/graph/task.go` creates its errgroup without `SetLimit`, so a layer of
6 independent tasks admits a schedule with 6 work functions running
simultaneously, exceeding the default WorkerCount of 5 the claim
guarantees; under the limit the functional-options implementation
configures, the same schedule is inadmissible. -/
theorem worker_limit_violation_struct_version :
    errgroupLimitS = none ∧
    errgroupLimit (NewTaskGraph Nat).opts = some 5 ∧
    validTrace errgroupLimitS [] [] ((List.range 6).map LEvent.start) = true ∧
    (runningAfter [] ((List.range 6).map LEvent.start)).length = 6 ∧
    ¬(runningAfter [] ((List.range 6).map LEvent.start)).length ≤ 5 ∧
    validTrace (errgroupLimit (NewTaskGraph Nat).opts) [] []
      ((List.range 6).map LEvent.start) = false := by
  exact ⟨rfl, rfl, by decide, by decide, by decide, by decide⟩

end Gntm
